import Mathlib

/-!
Verification of the NBA_Database scraping pipeline (`scrape_nba_stats.py`).

The Python functions under scrutiny are embedded shallowly as executable Lean
functions over `List Char` / list-of-record representations:

* `cleanColumnName`  — `clean_column_name` (column canonicalizer)
* `handle_traded_players` — traded-row consolidator
* `normalize_columns` — per-category schema normalizer (column retention/rename)
* `split_awards_column` — award decomposer
* `extract_player_id` — player-id extractor (regex search)
* `resolvedIds` / `alignerOutput` — the row/identity aligner portion of
  `scrape_stat_table`
* `updateCombined` — the cumulative-store merge of `save_to_csv`

Missing values (pandas NaN / Python None / non-str inputs) are modelled with
`Option`.  Python regular expressions used by the code are hand-compiled to
equivalent scanning functions, documented at each definition.
-/

/-! ## Generic character-list operations (Python `str.replace`, `re.sub`, strips) -/

/-- Python `str.replace(c, repl)` for a single-character pattern `c`:
every occurrence of `c` is replaced by the string `repl` (possibly empty). -/
def subst1 (c : Char) (repl : List Char) : List Char → List Char
  | [] => []
  | a :: rest => (if a = c then repl else [a]) ++ subst1 c repl rest

/-- Helper for `replaceList`: strip the literal pattern `pat` from the front of
a list, returning the remainder on success. -/
def stripPre : List Char → List Char → Option (List Char)
  | [], l => some l
  | _ :: _, [] => none
  | p :: ps, c :: rest => if p = c then stripPre ps rest else none

/-- Worker for `replaceList`.  `skip` counts characters still to be copied
over without attempting a match (the tail of a pattern that was just
replaced: when the pattern matches at a position we emit the replacement and
skip the remaining `pat.length - 1` matched characters). -/
def replAux (pat repl : List Char) : List Char → Nat → List Char
  | [], _ => []
  | _ :: rest, Nat.succ skip => replAux pat repl rest skip
  | c :: rest, 0 =>
    if pat ≠ [] ∧ pat.isPrefixOf (c :: rest) then repl ++ replAux pat repl rest (pat.length - 1)
    else c :: replAux pat repl rest 0

/-- Python `str.replace(pat, repl)` / `re.sub` with a literal pattern:
replace non-overlapping occurrences of `pat` left to right. -/
def replaceList (pat repl : List Char) (l : List Char) : List Char :=
  replAux pat repl l 0

/-- Worker for `reSubParen`, a hand-compilation of
`re.sub(r\x27\(([^)]+)\)\x27, r\x27_\1\x27, col)`: scanning left to right, a
parenthesized group with nonempty content and no inner close-paren is
rewritten to an underscore followed by the content.  `pending = some acc`
means an open paren has been read and `acc` holds the (reversed) content so
far; a group that never closes, or closes immediately (empty content), is
emitted verbatim exactly as the regex leaves it. -/
def parenAux : List Char → Option (List Char) → List Char
  | [], none => []
  | [], some acc => '(' :: acc.reverse
  | c :: rest, none => if c = '(' then parenAux rest (some []) else c :: parenAux rest none
  | c :: rest, some acc =>
    if c = ')' then
      if acc = [] then '(' :: ')' :: parenAux rest none
      else '_' :: acc.reverse ++ parenAux rest none
    else parenAux rest (some (c :: acc))

/-- The generic parenthetical rewrite of `clean_column_name` (line 69 of the
source): `(content)` becomes `_content` for any nonempty content without a
close-paren. -/
def reSubParen (l : List Char) : List Char := parenAux l none

/-- Collapse runs of underscores to a single underscore:
`re.sub(r\x27_+\x27, \x27_\x27, col)`. -/
def collapseU : List Char → List Char
  | [] => []
  | [c] => [c]
  | a :: b :: rest =>
    if a = '_' ∧ b = '_' then collapseU (b :: rest) else a :: collapseU (b :: rest)

/-- Python `col.rstrip(\x27_\x27)`: drop trailing underscores. -/
def rstripU : List Char → List Char
  | [] => []
  | a :: rest => if a = '_' ∧ rstripU rest = [] then [] else a :: rstripU rest

/-- True when the list has no two adjacent underscores. -/
def noDU : List Char → Bool
  | [] => true
  | [_] => true
  | a :: b :: rest => !(a = '_' && b = '_') && noDU (b :: rest)

/-- True when the list does not end with an underscore. -/
def noTrailU : List Char → Bool
  | [] => true
  | [c] => c ≠ '_'
  | _ :: b :: rest => noTrailU (b :: rest)

/-! ## Column Canonicalizer: `clean_column_name` (src lines 33–91) -/

/-- The numeric-prefix handling of `clean_column_name` (lines 43–62): range
labels are rewritten to `range_*` tokens; labels starting with `2P`, `3P`, or
a digit get a protected leading underscore (the returned Bool is the Python
`needs_leading_underscore` flag). -/
def numPrefix (l : List Char) : List Char × Bool :=
  if '-' ∈ l ∧ l.head? ≠ some '%' then
    if "0-3".data.isPrefixOf l then ("range_0_3".data ++ l.drop 3, false)
    else if "3-10".data.isPrefixOf l then ("range_3_10".data ++ l.drop 4, false)
    else if "10-16".data.isPrefixOf l then ("range_10_16".data ++ l.drop 5, false)
    else if "16-3P".data.isPrefixOf l then ("range_16_3P".data ++ l.drop 5, false)
    else (l, false)
  else if "2P".data.isPrefixOf l then ("_2P".data ++ l.drop 2, true)
  else if "3P".data.isPrefixOf l then ("_3P".data ++ l.drop 2, true)
  else
    match l with
    | c :: _ => if c.isDigit then ('_' :: l, true) else (l, false)
    | [] => (l, false)

/-- The parenthetical substitutions of `clean_column_name` (lines 65–69): four
fixed literal rewrites, then the generic `(content)` → `_content` rewrite. -/
def parenSub (l : List Char) : List Char :=
  reSubParen
    (replaceList "(Corner 3s)".data "_Corner_3s".data
      (replaceList "(% AST\x27d)".data "_pct_ASTd".data
        (replaceList "(FG%)".data "_FG_pct".data
          (replaceList "(% of FGA)".data "_pct_of_FGA".data l))))

/-- The symbol substitutions of `clean_column_name` (lines 72–81), in source
order: `%`→`_pct`, `+` dropped, `/`→`_per_`, `-`→`_`, space→`_`, `.` dropped,
`#`→`_ct`, apostrophe dropped. -/
def symbolSub (l : List Char) : List Char :=
  subst1 '\x27' []
    (subst1 '#' "_ct".data
      (subst1 '.' []
        (subst1 ' ' ['_']
          (subst1 '-' ['_']
            (subst1 '/' "_per_".data
              (subst1 '+' []
                (subst1 '%' "_pct".data l)))))))

/-- The body of `clean_column_name` on a (nonempty, non-NaN) name, as a
character-list function: numeric-prefix handling, parenthetical and symbol
substitutions, underscore collapsing, trailing strip, and a leading strip
unless the leading underscore was added to protect a numeric-leading name. -/
def cleanChars (l : List Char) : List Char :=
  let p := numPrefix l
  let col := rstripU (collapseU (symbolSub (parenSub p.1)))
  if p.2 then col else col.dropWhile (fun c => c = '_')

/-- `clean_column_name` (src lines 33–91).  The input is an `Option String`:
`none` models a pandas-missing (NaN / None, i.e. non-string) column name,
which — like the empty string — is mapped to the fallback name `Unnamed`. -/
def cleanColumnName : Option String → String
  | none => "Unnamed"
  | some s => if s = "" then "Unnamed" else String.mk (cleanChars s.data)

/-- Predicate used to state the amended idempotence claim: the head of the
canonical name is neither an underscore nor a digit. -/
def headOK : List Char → Bool
  | [] => true
  | c :: _ => !(c = '_') && !c.isDigit

/-! ## Incremental Merge Store: the combined-file update of `save_to_csv`
(src lines 744–768) -/

/-- One row of a cumulative (all-years) table: the `player_id` and `year`
columns plus the remaining cell values. -/
structure MRow where
  player_id : String
  year : Nat
  rest : List String
deriving DecidableEq, Repr

/-- `df_with_year.insert(1, \x27year\x27, year)` (line 746): stamp every
incoming row with the season year. -/
def dfWithYear (raw : List (String × List String)) (y : Nat) : List MRow :=
  raw.map (fun r => ⟨r.1, y, r.2⟩)

/-- The combined-file update of `save_to_csv` (lines 756–762): drop every
prior row whose year equals the incoming year, then append the incoming
rows. -/
def updateCombined (prior incoming : List MRow) (y : Nat) : List MRow :=
  prior.filter (fun r => r.year != y) ++ incoming

/-! ## Traded-Row Consolidator: `handle_traded_players` (src lines 94–147) -/

/-- One row of a per-season stats table as seen by `handle_traded_players`:
the `player_id` and `Team` cells plus the remaining cell values. -/
structure PRow where
  player_id : String
  team : String
  rest : List String
deriving DecidableEq, Repr

/-- Python `pat in s` on strings: `pat` occurs as a contiguous substring. -/
def containsSub (pat : List Char) : List Char → Bool
  | [] => pat.isPrefixOf []
  | c :: rest => pat.isPrefixOf (c :: rest) || containsSub pat rest

/-- `\x27TM\x27 in team` — the aggregate-row marker test
(`df[\x27Team\x27].astype(str).str.contains(\x27TM\x27)`, line 111). -/
def tmContains (s : String) : Bool := containsSub "TM".data s.data

/-- Python `str.strip()` (whitespace strip from both ends). -/
def pyStrip (s : String) : String :=
  String.mk (((s.data.dropWhile Char.isWhitespace).reverse.dropWhile Char.isWhitespace).reverse)

/-- The team-label filter of line 133: drop empty, `nan`, all-whitespace and
TM-containing labels. -/
def filterTeams (ts : List String) : List String :=
  ts.filter (fun t => t != "" && t != "nan" && pyStrip t != "" && !(tmContains t))

/-- The per-player team-row selection of lines 124–127, with positional
indices: rows of the given player whose team does not contain `TM`. -/
def teamRowsFor (rows : List PRow) (pid : String) : List (Nat × PRow) :=
  rows.enum.filter (fun p => p.2.player_id == pid && !(tmContains p.2.team))

/-- One iteration of the `for idx, tm_row in tm_rows.iterrows()` loop (lines
120–140) on the state (current rows, indices marked for removal). -/
def htpStep (st : List PRow × List Nat) (idx : Nat) : List PRow × List Nat :=
  match st.1.get? idx with
  | none => st
  | some tmRow =>
    let teamRows := teamRowsFor st.1 tmRow.player_id
    if teamRows = [] then st
    else
      let teams := filterTeams (teamRows.map (fun p => p.2.team))
      if teams = [] then st
      else
        (st.1.set idx { tmRow with team := String.intercalate ", " teams },
         st.2 ++ teamRows.map (fun p => p.1))

/-- Positions of the aggregate-marked rows (`tm_mask`, line 111), in table
order. -/
def tmIndices (rows : List PRow) : List Nat :=
  (rows.enum.filter (fun p => tmContains p.2.team)).map (fun p => p.1)

/-- The body of `handle_traded_players` once the guard has passed: process
every aggregate-marked row, then drop the marked per-team rows (lines
111–147). -/
def handleTradedRows (rows : List PRow) : List PRow :=
  let st := (tmIndices rows).foldl htpStep (rows, [])
  if st.2 = [] then st.1
  else (st.1.enum.filter (fun p => !(st.2.contains p.1))).map (fun p => p.2)

/-- A data frame as seen by `handle_traded_players`: the two flags model
presence of the `player_id` / `Team` columns (line 107 returns the input
unchanged when either is missing or the frame is empty). -/
structure PDF where
  hasPlayerId : Bool
  hasTeam : Bool
  rows : List PRow
deriving DecidableEq, Repr

/-- `handle_traded_players` (src lines 94–147). -/
def handle_traded_players (df : PDF) : PDF :=
  if df.rows = [] ∨ df.hasPlayerId = false ∨ df.hasTeam = false then df
  else { df with rows := handleTradedRows df.rows }

/-- The filtered team labels of a player's non-aggregate rows, in table
order, computed from a fixed table (used to state the specification of the
consolidator). -/
def aggTeams (rows : List PRow) (pid : String) : List String :=
  filterTeams ((rows.filter (fun r => r.player_id == pid && !(tmContains r.team))).map
    (fun r => r.team))

/-- True when the table has an aggregate-marked row for the player. -/
def hasAggRow (rows : List PRow) (pid : String) : Bool :=
  rows.any (fun r => r.player_id == pid && tmContains r.team)

/-- True when the table has a non-aggregate row for the player. -/
def hasTeamRow (rows : List PRow) (pid : String) : Bool :=
  rows.any (fun r => r.player_id == pid && !(tmContains r.team))

/-- Modelled from the claim wording (spec §4.5): every aggregate-marked row
has its team replaced by the joined labels of that player's non-aggregate
rows (unchanged when there are zero matching per-team rows), and every
per-team row of a player that has an aggregate row is deleted. -/
def claimTradedSpec (rows : List PRow) : List PRow :=
  rows.filterMap (fun r =>
    if tmContains r.team then
      some
        (if hasTeamRow rows r.player_id then
          { r with team := String.intercalate ", " (aggTeams rows r.player_id) }
         else r)
    else if hasAggRow rows r.player_id then none
    else some r)

/-- The amended specification of the consolidator: as `claimTradedSpec`, but
an aggregate row whose filtered team-label list is empty is left unchanged
and its per-team rows are kept. -/
def tradedSpec (rows : List PRow) : List PRow :=
  rows.filterMap (fun r =>
    if tmContains r.team then
      some
        (if aggTeams rows r.player_id = [] then r
         else { r with team := String.intercalate ", " (aggTeams rows r.player_id) })
    else if hasAggRow rows r.player_id ∧ aggTeams rows r.player_id ≠ [] then none
    else some r)

/-- No two distinct rows are both aggregate-marked for the same player —
the precondition of the amended consolidator claim. -/
def atMostOneAgg (rows : List PRow) : Prop :=
  List.Pairwise
    (fun a b => ¬(tmContains a.team = true ∧ tmContains b.team = true ∧ a.player_id = b.player_id))
    rows

/-- An aggregate row with its team field replaced by the joined filtered
labels of the player's per-team rows. -/
def mutRow (rows : List PRow) (r : PRow) : PRow :=
  { r with team := String.intercalate ", " (aggTeams rows r.player_id) }

/-- The per-row final value under the consolidator specification: aggregate
rows with a nonempty filtered label list get the joined team field, all
other rows are unchanged. -/
def specRow (rows : List PRow) (r : PRow) : PRow :=
  if tmContains r.team = true ∧ aggTeams rows r.player_id ≠ [] then mutRow rows r else r

/-- The per-row drop test under the consolidator specification: a
non-aggregate row of a player that has an aggregate row with a nonempty
filtered label list. -/
def specDrop (rows : List PRow) (r : PRow) : Bool :=
  !(tmContains r.team) && hasAggRow rows r.player_id &&
    !(decide (aggTeams rows r.player_id = []))

/-! ## Schema Normalizer: `normalize_columns` (src lines 150–247), modelled
on the ordered list of column names -/

/-- Biographical columns (line 169). -/
def bioCols : List String := ["Player", "Age", "Team", "Pos"]

/-- Award columns (lines 172–173). -/
def awardColsList : List String :=
  ["6MOY", "AS", "CPOY", "DEF1", "DEF2", "DPOY", "MIP", "MVP",
   "NBA1", "NBA2", "NBA3", "ROY", "Trp_Dbl"]

/-- Shooting-percentage columns (line 176). -/
def pctCols : List String := ["FG_pct", "_3P_pct", "_2P_pct", "eFG_pct", "FT_pct", "TS_pct"]

/-- Games-played / games-started columns (line 179). -/
def gameCols : List String := ["G", "GS"]

/-- Counting-stat columns renamed with per-category suffixes (lines 186–187). -/
def statColsToRename : List String :=
  ["FG", "FGA", "_3P", "_3PA", "_2P", "_2PA", "FT", "FTA",
   "ORB", "DRB", "TRB", "AST", "STL", "BLK", "TOV", "PF", "PTS"]

/-- The eight internal stat-category keys (`STAT_TYPES`, src lines 21–30). -/
def statTypeKeys : List String :=
  ["totals", "per_game", "per_36", "per_100_poss", "advanced", "play-by-play",
   "shooting", "adj_shooting"]

/-- `suffix_map.get(stat_type, \x27\x27)` (lines 190–196). -/
def suffixOf (stat : String) : String :=
  if stat = "totals" then "_total"
  else if stat = "per_game" then "_pGame"
  else if stat = "per_36" then "_p36"
  else if stat = "per_100_poss" then "_p100"
  else ""

/-- The column renaming of lines 228–245 as a function on one column name. -/
def renameCol (stat : String) (c : String) : String :=
  if suffixOf stat ≠ "" ∧ c ∈ statColsToRename then c ++ suffixOf stat
  else if stat = "per_game" ∧ c = "MP" then "MP_pGame"
  else if stat = "totals" ∧ c = "MP" then "MP_total"
  else c

/-- Lines 199–202: drop the biographical columns unless the category is
`totals`. -/
def dropBio (cols : List String) (stat : String) : List String :=
  if stat ≠ "totals" then cols.filter (fun c => !(bioCols.contains c)) else cols

/-- Lines 205–208: drop the award columns unless the category is `totals`. -/
def dropAwards (cols : List String) (stat : String) : List String :=
  if stat ≠ "totals" then cols.filter (fun c => !(awardColsList.contains c)) else cols

/-- Lines 211–214: drop the shooting-percentage columns unless the category
is `adj_shooting`. -/
def dropPct (cols : List String) (stat : String) : List String :=
  if stat ≠ "adj_shooting" then cols.filter (fun c => !(pctCols.contains c)) else cols

/-- Lines 217–220: drop G and GS unless the category is `totals`. -/
def dropGames (cols : List String) (stat : String) : List String :=
  if stat ≠ "totals" then cols.filter (fun c => !(gameCols.contains c)) else cols

/-- Lines 223–225: drop MP unless the category is `totals` or `per_game`. -/
def dropMP (cols : List String) (stat : String) : List String :=
  if ¬(stat = "totals" ∨ stat = "per_game") then cols.filter (fun c => !(c == "MP")) else cols

/-- `normalize_columns` (src lines 150–247) restricted to its effect on the
ordered list of column names: the five conditional drops (bio, awards,
percentages, G/GS, MP) in source order, followed by the suffix renaming. -/
def normalize_columns (cols : List String) (stat : String) : List String :=
  (dropMP (dropGames (dropPct (dropAwards (dropBio cols stat) stat) stat) stat) stat).map
    (renameCol stat)

/-! ## Award Decomposer: `split_awards_column` (src lines 250–316) -/

/-- Python `str.split(\x27,\x27)`: split on every comma, keeping empty
pieces (so the result is always nonempty). -/
def splitComma (s : String) : List String :=
  (s.data.foldr
    (fun c acc =>
      if c = ',' then [] :: acc
      else
        match acc with
        | [] => [[c]]
        | a :: rest => (c :: a) :: rest)
    [[]]).map (fun l => String.mk l)

/-- `award.split(\x27-\x27)[0]` when the mention has a hyphen, otherwise the
mention itself (lines 275–278). -/
def baseAward (a : String) : String :=
  if '-' ∈ a.data then String.mk (a.data.takeWhile (fun c => c ≠ '-')) else a

/-- The discovery pass of lines 267–279: the base award codes of every
non-missing cell, in row order (with duplicates). -/
def collectBases (cells : List (Option String)) : List String :=
  cells.foldl
    (fun acc cell =>
      match cell with
      | none => acc
      | some s =>
        acc ++ ((splitComma s).map pyStrip).filterMap
          (fun a => if a = "" then none else some (baseAward a)))
    []

/-- Lexicographic code-point comparison on character lists — the string
order Python `sorted` uses. -/
def strLtChars : List Char → List Char → Bool
  | [], [] => false
  | [], _ :: _ => true
  | _ :: _, [] => false
  | a :: as, b :: bs =>
    if a.toNat < b.toNat then true
    else if b.toNat < a.toNat then false
    else strLtChars as bs

/-- Python `a < b` on strings. -/
def strLt (a b : String) : Bool := strLtChars a.data b.data

/-- Insertion into a sorted list under the code-point order on strings. -/
def insertSorted (a : String) : List String → List String
  | [] => [a]
  | b :: bs => if strLt b a then b :: insertSorted a bs else a :: b :: bs

/-- Insertion sort under the code-point order (Python `sorted`). -/
def sortStrs (l : List String) : List String := l.foldr insertSorted []

/-- Remove adjacent duplicates (applied after sorting, this models taking
the sorted list of a Python set). -/
def dedupAdj : List String → List String
  | [] => []
  | [a] => [a]
  | a :: b :: r => if a = b then dedupAdj (b :: r) else a :: dedupAdj (b :: r)

/-- Decimal digits to a natural number. -/
def digitsToNat (l : List Char) : Nat := l.foldl (fun n c => n * 10 + (c.toNat - 48)) 0

/-- Python `int(s)` for the nonnegative case: optional surrounding
whitespace, an optional plus sign, then at least one digit (the hyphen-split
segment this is applied to can never contain a minus sign). -/
def pyIntNat (s : String) : Option Nat :=
  let t := ((s.data.dropWhile Char.isWhitespace).reverse.dropWhile Char.isWhitespace).reverse
  let t2 :=
    match t with
    | '+' :: r => r
    | r => r
  if t2 ≠ [] ∧ t2.all Char.isDigit then some (digitsToNat t2) else none

/-- `int(a.split(\x27-\x27)[1])` (line 296): parse the segment between the
first and second hyphen. -/
def parseRank (a : String) : Option Nat :=
  pyIntNat (String.mk (((a.data.dropWhile (fun c => c ≠ '-')).drop 1).takeWhile
    (fun c => c ≠ '-')))

/-- The inner scan of lines 289–303: the first stripped mention that starts
with the award code yields its parsed rank (1 when the rank is missing or
unparseable); `none` means no mention matched. -/
def awardValueIn (award : String) : List String → Option Nat
  | [] => none
  | a :: rest =>
    if award.data.isPrefixOf a.data then
      some (if '-' ∈ a.data then (parseRank a).getD 1 else 1)
    else awardValueIn award rest

/-- The per-row value of one award column (lines 283–305): 0 for a missing
cell or an absent award. -/
def rowValue (award : String) (cell : Option String) : Nat :=
  match cell with
  | none => 0
  | some s => (awardValueIn award ((splitComma s).map pyStrip)).getD 0

/-- The columns of a stats table relevant to `split_awards_column`: the
optional free-text `Awards` column, the optional `Column_25` / `Column_31`
placeholder columns (cells are `Option String`, `none` = NaN), and the
numeric award columns the function appends. -/
structure AwDF where
  awardsCol : Option (List (Option String))
  col25 : Option (List (Option String))
  col31 : Option (List (Option String))
  awardCols : List (String × List Nat)
deriving DecidableEq, Repr

/-- The detection heuristic of lines 253–258: sample the first five
non-missing values and look for a comma or hyphen. -/
def looksLikeAwards (col : List (Option String)) : Bool :=
  let sample := (col.filterMap id).take 5
  !sample.isEmpty && sample.any (fun v => v.data.contains ',' || v.data.contains '-')

/-- The placeholder-column rename of lines 252–261: when `Awards` is absent,
try `Column_25` then `Column_31`; the first one that looks like award data
becomes the `Awards` column. -/
def detectAwards (df : AwDF) : AwDF :=
  match df.awardsCol with
  | some _ => df
  | none =>
    match df.col25 with
    | some c =>
      if looksLikeAwards c then { df with awardsCol := some c, col25 := none }
      else
        match df.col31 with
        | some c31 =>
          if looksLikeAwards c31 then { df with awardsCol := some c31, col31 := none } else df
        | none => df
    | none =>
      match df.col31 with
      | some c31 =>
        if looksLikeAwards c31 then { df with awardsCol := some c31, col31 := none } else df
      | none => df

/-- `split_awards_column` (src lines 250–316): detect/rename the awards
column, emit one numeric column per discovered base award code in sorted
order, and drop the free-text and placeholder columns. -/
def split_awards_column (df0 : AwDF) : AwDF :=
  let df := detectAwards df0
  match df.awardsCol with
  | none => df
  | some cells =>
    { awardsCol := none, col25 := none, col31 := none,
      awardCols := df.awardCols ++
        (dedupAdj (sortStrs (collectBases cells))).map
          (fun aw => (aw, cells.map (rowValue aw))) }

/-! ## Identifier Extractor: `extract_player_id` (src lines 319–338).  The
regex `/players/[a-z]/([a-z0-9]+)\.html` is hand-compiled: `re.search`
scans positions left to right; at a match position the group is the maximal
nonempty `[a-z0-9]` run, which must be followed by the literal `.html`. -/

/-- ASCII lowercase test (`[a-z]`). -/
def isLowerAZ (c : Char) : Bool := 'a' ≤ c && c ≤ 'z'

/-- The `[a-z0-9]` character class. -/
def isIdChar (c : Char) : Bool := isLowerAZ c || ('0' ≤ c && c ≤ '9')

/-- Attempt to match the player-URL pattern at the head of the list,
returning the captured identifier. -/
def tryMatch (l : List Char) : Option String :=
  match stripPre "/players/".data l with
  | none => none
  | some rest =>
    match rest with
    | c :: s :: rest2 =>
      if s = '/' ∧ isLowerAZ c = true then
        if rest2.takeWhile isIdChar ≠ [] ∧
            ".html".data.isPrefixOf (rest2.drop (rest2.takeWhile isIdChar).length) then
          some (String.mk (rest2.takeWhile isIdChar))
        else none
      else none
    | _ => none

/-- A player-URL pattern occurrence, fully parenthesized: the literal
`/players/`, one letter, a slash, the identifier characters, then `.html`
and arbitrary trailing characters. -/
def playerPat (c : Char) (idc post : List Char) : List Char :=
  "/players/".data ++ (c :: '/' :: (idc ++ (".html".data ++ post)))

/-- `re.search`: try the pattern at every position, leftmost match wins. -/
def searchAux : List Char → Option String
  | [] => none
  | c :: rest =>
    match tryMatch (c :: rest) with
    | some s => some s
    | none => searchAux rest

/-- `extract_player_id` (src lines 319–338); `none` input models a
non-string (missing) value. -/
def extract_player_id : Option String → Option String
  | none => none
  | some s => if s = "" then none else searchAux s.data

/-! ## Row/Identity Aligner: the `player_ids_for_df` logic of
`scrape_stat_table` (src lines 516–574).  A markup row is modelled by its
first `/players/`-link, if any, as an (href, stripped link text) pair; the
parsed table is its column names and its rows of cell strings (already
cleaned of repeated sub-header rows, lines 509–514). -/

/-- One markup (HTML) table row: the first player link, if present. -/
structure HRow where
  link : Option (String × String)
deriving DecidableEq, Repr

/-- The parsed data table: column names and rows of cell strings. -/
structure AlignDF where
  cols : List String
  rows : List (List String)
deriving DecidableEq, Repr

/-- The positional identifier extraction of lines 487–503: one entry per
markup row, `none` when the row has no link or the href yields no id. -/
def posIds (hrows : List HRow) : List (Option String) :=
  hrows.map (fun r =>
    match r.link with
    | some (href, _) => extract_player_id (some href)
    | none => none)

/-- `valid_player_ids` (line 518): the positional identifiers that are
present. -/
def validIds (hrows : List HRow) : List String := (posIds hrows).filterMap id

/-- `player_ids_for_df` before the fallback (lines 522–527): truncate a
surplus of valid ids, or pad a shortage with `none`. -/
def idsForDf (hrows : List HRow) (n : Nat) : List (Option String) :=
  let valid := validIds hrows
  if n ≤ valid.length then (valid.take n).map some
  else valid.map some ++ List.replicate (n - valid.length) none

/-- The fallback trigger of line 531: a length mismatch or any absent
positional identifier. -/
def fallbackCond (hrows : List HRow) (n : Nat) : Bool :=
  (idsForDf hrows n).length != n || (idsForDf hrows n).any (fun p => p.isNone)

/-- ASCII lowercasing of one character (Python `str.lower()` restricted to
ASCII, which covers the column names involved). -/
def lowerChar (c : Char) : Char :=
  if 'A' ≤ c ∧ c ≤ 'Z' then Char.ofNat (c.toNat + 32) else c

/-- The player-name-column search of lines 536–541: the first column whose
lowercased name contains `player` but not `id`. -/
def findNameCol (cols : List String) : Option Nat :=
  (cols.enum.find? (fun p =>
    containsSub "player".data (p.2.data.map lowerChar) &&
    !(containsSub "id".data (p.2.data.map lowerChar)))).map
    (fun p => p.1)

/-- Dictionary insertion (later assignments to the same key overwrite). -/
def insertAssoc (m : List (String × String)) (k v : String) : List (String × String) :=
  if (m.find? (fun p => p.1 == k)).isSome then m.map (fun p => if p.1 == k then (k, v) else p)
  else m ++ [(k, v)]

/-- The `name_to_id` map of lines 544–552, built from the markup rows. -/
def nameToId (hrows : List HRow) : List (String × String) :=
  hrows.foldl
    (fun m r =>
      match r.link with
      | some (href, text) =>
        match extract_player_id (some href) with
        | some pid => if pid ≠ "" ∧ text ≠ "" then insertAssoc m text pid else m
        | none => m
      | none => m)
    []

/-- The fallback resolution of lines 532–561: look each row's trimmed
player-name cell up in the name map; without a name column, fall back to the
raw positional list truncated to the row count. -/
def fallbackIds (hrows : List HRow) (df : AlignDF) : List (Option String) :=
  match findNameCol df.cols with
  | some ci => df.rows.map (fun row => (nameToId hrows).lookup (pyStrip (row.getD ci "")))
  | none => (posIds hrows).take df.rows.length

/-- The resolved identifier list after both strategies (lines 516–561). -/
def resolvedIds (hrows : List HRow) (df : AlignDF) : List (Option String) :=
  if fallbackCond hrows df.rows.length then fallbackIds hrows df
  else idsForDf hrows df.rows.length

/-- The id-column insertion of lines 563–571, padding or trimming to the
row count as a last resort. -/
def insertedIds (hrows : List HRow) (df : AlignDF) : List (Option String) :=
  let ids := resolvedIds hrows df
  if ids.length = df.rows.length then ids
  else (ids ++ List.replicate (df.rows.length - ids.length) none).take df.rows.length

/-- The table just before line 574: each data row paired with its resolved
identifier (possibly absent). -/
def alignerPreDrop (hrows : List HRow) (df : AlignDF) : List (Option String × List String) :=
  (insertedIds hrows df).zip df.rows

/-- The aligner output after `df = df[df[\x27player_id\x27].notna()]`
(line 574): rows with an absent identifier are dropped. -/
def alignerOutput (hrows : List HRow) (df : AlignDF) : List (String × List String) :=
  (alignerPreDrop hrows df).filterMap (fun p =>
    match p.1 with
    | some pid => some (pid, p.2)
    | none => none)

/-- Concrete markup rows used to exercise the aligner: four player links. -/
def exHrows : List HRow :=
  [⟨some ("/players/a/aaa01.html", "Alice")⟩, ⟨some ("/players/b/bbb01.html", "Bob")⟩,
   ⟨some ("/players/c/ccc01.html", "Carol")⟩, ⟨some ("/players/d/ddd01.html", "Dave")⟩]

/-- Concrete parsed table used to exercise the aligner: three data rows whose
names match the last three markup links. -/
def exAlignDf : AlignDF := ⟨["Player"], [["Bob"], ["Carol"], ["Dave"]]⟩

/-- Concrete table with two aggregate-marked rows for the same player. -/
def exDoubleAgg : List PRow :=
  [⟨"p", "2TM", []⟩, ⟨"p", "A", []⟩, ⟨"p", "B", []⟩, ⟨"p", "3TM", []⟩]

/-- Concrete markup with a single player link, used to exercise the
aligner fallback (fewer identifiers than rows). -/
def exFallbackHrows : List HRow := [⟨some ("/players/a/aaa01.html", "Alice")⟩]

/-- Concrete two-row table for the fallback scenario: `Alice` resolves via
the name map, `Zed` stays unresolved and is dropped. -/
def exFallbackDf : AlignDF := ⟨["Player"], [["Alice"], ["Zed"]]⟩

/-- Concrete frame for the consolidator: one traded player with an
aggregate-marked row and two team rows, plus an untraded player. -/
def exTradedDf : PDF :=
  ⟨true, true, [⟨"p", "2TM", []⟩, ⟨"p", "A", []⟩, ⟨"p", "B", []⟩, ⟨"q", "C", []⟩]⟩

/-! # Theorems -/

/-! ## Generic lemmas about the character-pipeline building blocks -/

theorem subst1_mem {c : Char} {repl : List Char} {x : Char} :
    ∀ {l : List Char}, x ∈ subst1 c repl l → x ∈ repl ∨ x ∈ l
  | [], h => by simp [subst1] at h
  | a :: rest, h => by
    simp only [subst1, List.mem_append] at h
    rcases h with h | h
    · by_cases hac : a = c
      · simp [hac] at h; exact Or.inl h
      · simp [hac] at h; exact Or.inr (by simp [h])
    · rcases subst1_mem h with h | h
      · exact Or.inl h
      · exact Or.inr (List.mem_cons_of_mem _ h)

theorem subst1_not_mem {c d : Char} {repl : List Char} :
    ∀ {l : List Char}, d ∉ l → d ∉ repl → d ∉ subst1 c repl l := by
  intro l hl hr hmem
  rcases subst1_mem hmem with h | h
  · exact hr h
  · exact hl h

theorem subst1_self_not_mem {c : Char} {repl : List Char} (hr : c ∉ repl) :
    ∀ {l : List Char}, c ∉ subst1 c repl l
  | [] => by simp [subst1]
  | a :: rest => by
    simp only [subst1, List.mem_append]
    rintro (h | h)
    · by_cases hac : a = c
      · simp [hac] at h; exact hr h
      · simp [hac] at h; exact hac (h.symm)
    · exact subst1_self_not_mem hr h

theorem subst1_id {c : Char} {repl : List Char} :
    ∀ {l : List Char}, c ∉ l → subst1 c repl l = l
  | [], _ => rfl
  | a :: rest, h => by
    have hac : ¬(a = c) := fun he => h (by simp [he])
    simp only [subst1, if_neg hac, List.cons_append, List.nil_append]
    exact congrArg _ (subst1_id (fun hm => h (List.mem_cons_of_mem _ hm)))

theorem head_of_isPrefixOf {a : Char} {as l : List Char}
    (h : (a :: as).isPrefixOf l = true) : l.head? = some a := by
  cases l with
  | nil => simp [List.isPrefixOf] at h
  | cons b bs =>
    simp only [List.isPrefixOf, Bool.and_eq_true, beq_iff_eq] at h
    simp [h.1]

theorem replAux_mem {pat repl : List Char} {x : Char} :
    ∀ {l : List Char} {skip : Nat}, x ∈ replAux pat repl l skip → x ∈ repl ∨ x ∈ l
  | [], _, h => by simp [replAux] at h
  | a :: rest, Nat.succ skip, h => by
    simp only [replAux] at h
    rcases replAux_mem h with h | h
    · exact Or.inl h
    · exact Or.inr (List.mem_cons_of_mem _ h)
  | a :: rest, 0, h => by
    simp only [replAux] at h
    split at h
    · rcases List.mem_append.mp h with h | h
      · exact Or.inl h
      · rcases replAux_mem h with h | h
        · exact Or.inl h
        · exact Or.inr (List.mem_cons_of_mem _ h)
    · rcases List.mem_cons.mp h with h | h
      · exact Or.inr (by simp [h])
      · rcases replAux_mem h with h | h
        · exact Or.inl h
        · exact Or.inr (List.mem_cons_of_mem _ h)

theorem replaceList_mem {pat repl l : List Char} {x : Char}
    (h : x ∈ replaceList pat repl l) : x ∈ repl ∨ x ∈ l :=
  replAux_mem h

theorem replAux_id {p0 : Char} {ps repl : List Char} :
    ∀ {l : List Char}, p0 ∉ l → replAux (p0 :: ps) repl l 0 = l
  | [], _ => rfl
  | a :: rest, h => by
    have hane : ¬(p0 = a) := fun he => h (by simp [he])
    have hcond : ¬((p0 :: ps) ≠ [] ∧ (p0 :: ps).isPrefixOf (a :: rest) = true) := by
      simp [List.isPrefixOf, hane]
    simp only [replAux, if_neg hcond]
    exact congrArg _ (replAux_id (fun hm => h (List.mem_cons_of_mem _ hm)))

theorem replaceList_id {pat repl : List Char} {p0 : Char} (hp : pat.head? = some p0)
    {l : List Char} (h : p0 ∉ l) : replaceList pat repl l = l := by
  have hpat : ∃ ps, pat = p0 :: ps := by
    cases pat with
    | nil => simp at hp
    | cons q qs => simp at hp; exact ⟨qs, by simp [hp]⟩
  rcases hpat with ⟨ps, rfl⟩
  exact replAux_id h

theorem parenAux_mem {x : Char} :
    ∀ {l : List Char} {m : Option (List Char)}, x ∈ parenAux l m →
      x ∈ l ∨ x = '_' ∨ x = '(' ∨ x = ')' ∨ (∃ acc, m = some acc ∧ x ∈ acc)
  | [], none, h => by simp [parenAux] at h
  | [], some acc, h => by
    simp only [parenAux, List.mem_cons, List.mem_reverse] at h
    rcases h with h | h
    · exact Or.inr (Or.inr (Or.inl h))
    · exact Or.inr (Or.inr (Or.inr (Or.inr ⟨acc, rfl, h⟩)))
  | c :: rest, none, h => by
    simp only [parenAux] at h
    split at h
    · rcases parenAux_mem h with h | h | h | h | ⟨acc, hacc, hxa⟩
      · exact Or.inl (List.mem_cons_of_mem _ h)
      · exact Or.inr (Or.inl h)
      · exact Or.inr (Or.inr (Or.inl h))
      · exact Or.inr (Or.inr (Or.inr (Or.inl h)))
      · simp at hacc; subst hacc; simp at hxa
    · rcases List.mem_cons.mp h with h | h
      · exact Or.inl (by simp [h])
      · rcases parenAux_mem h with h | h | h | h | ⟨acc, hacc, _⟩
        · exact Or.inl (List.mem_cons_of_mem _ h)
        · exact Or.inr (Or.inl h)
        · exact Or.inr (Or.inr (Or.inl h))
        · exact Or.inr (Or.inr (Or.inr (Or.inl h)))
        · exact absurd hacc (by simp)
  | c :: rest, some acc, h => by
    simp only [parenAux] at h
    by_cases hc : c = ')'
    · rw [if_pos hc] at h
      by_cases hacc : acc = []
      · rw [if_pos hacc] at h
        rcases List.mem_cons.mp h with h | h
        · exact Or.inr (Or.inr (Or.inl h))
        · rcases List.mem_cons.mp h with h | h
          · exact Or.inr (Or.inr (Or.inr (Or.inl h)))
          · rcases parenAux_mem h with h | h | h | h | ⟨acc2, hacc2, _⟩
            · exact Or.inl (List.mem_cons_of_mem _ h)
            · exact Or.inr (Or.inl h)
            · exact Or.inr (Or.inr (Or.inl h))
            · exact Or.inr (Or.inr (Or.inr (Or.inl h)))
            · exact absurd hacc2 (by simp)
      · rw [if_neg hacc] at h
        rcases List.mem_cons.mp h with h | h
        · exact Or.inr (Or.inl h)
        · rcases List.mem_append.mp h with h | h
          · exact Or.inr (Or.inr (Or.inr (Or.inr ⟨acc, rfl, List.mem_reverse.mp h⟩)))
          · rcases parenAux_mem h with h | h | h | h | ⟨acc2, hacc2, _⟩
            · exact Or.inl (List.mem_cons_of_mem _ h)
            · exact Or.inr (Or.inl h)
            · exact Or.inr (Or.inr (Or.inl h))
            · exact Or.inr (Or.inr (Or.inr (Or.inl h)))
            · exact absurd hacc2 (by simp)
    · rw [if_neg hc] at h
      rcases parenAux_mem h with h | h | h | h | ⟨acc2, hacc2, hxa⟩
      · exact Or.inl (List.mem_cons_of_mem _ h)
      · exact Or.inr (Or.inl h)
      · exact Or.inr (Or.inr (Or.inl h))
      · exact Or.inr (Or.inr (Or.inr (Or.inl h)))
      · have hac : c :: acc = acc2 := by simpa using hacc2
        subst hac
        rcases List.mem_cons.mp hxa with h | h
        · exact Or.inl (by simp [h])
        · exact Or.inr (Or.inr (Or.inr (Or.inr ⟨acc, rfl, h⟩)))

theorem parenAux_id : ∀ {l : List Char}, '(' ∉ l → parenAux l none = l
  | [], _ => rfl
  | c :: rest, h => by
    have hc : ¬(c = '(') := fun he => h (by simp [he])
    simp only [parenAux, if_neg hc]
    exact congrArg _ (parenAux_id (fun hm => h (List.mem_cons_of_mem _ hm)))

theorem reSubParen_mem {l : List Char} {x : Char} (h : x ∈ reSubParen l) :
    x ∈ l ∨ x = '_' ∨ x = '(' ∨ x = ')' := by
  rcases parenAux_mem h with h | h | h | h | ⟨acc, hacc, _⟩
  · exact Or.inl h
  · exact Or.inr (Or.inl h)
  · exact Or.inr (Or.inr (Or.inl h))
  · exact Or.inr (Or.inr (Or.inr h))
  · exact absurd hacc (by simp)

theorem reSubParen_id {l : List Char} (h : '(' ∉ l) : reSubParen l = l := parenAux_id h

theorem collapseU_mem {x : Char} : ∀ {l : List Char}, x ∈ collapseU l → x ∈ l
  | [], h => by simp [collapseU] at h
  | [c], h => by simpa [collapseU] using h
  | a :: b :: rest, h => by
    simp only [collapseU] at h
    split at h
    · exact List.mem_cons_of_mem _ (collapseU_mem h)
    · rcases List.mem_cons.mp h with h | h
      · simp [h]
      · exact List.mem_cons_of_mem _ (collapseU_mem h)

theorem collapseU_head? : ∀ {l : List Char}, (collapseU l).head? = l.head?
  | [] => rfl
  | [_] => rfl
  | a :: b :: rest => by
    simp only [collapseU]
    split
    · next hab =>
      rw [collapseU_head? (l := b :: rest)]
      simp [hab.1, hab.2]
    · simp

theorem collapseU_noDU : ∀ (l : List Char), noDU (collapseU l) = true
  | [] => rfl
  | [_] => rfl
  | a :: b :: rest => by
    simp only [collapseU]
    split
    · exact collapseU_noDU (b :: rest)
    · next hab =>
      have hh : (collapseU (b :: rest)).head? = some b := collapseU_head?
      have htail := collapseU_noDU (b :: rest)
      cases hcb : collapseU (b :: rest) with
      | nil => simp [noDU]
      | cons x xs =>
        rw [hcb] at hh htail
        have hxb : x = b := by simpa using hh
        subst hxb
        simp only [noDU, Bool.and_eq_true, Bool.not_eq_true]
        refine ⟨?_, htail⟩
        by_cases ha : a = '_'
        · by_cases hb : x = '_'
          · exact absurd ⟨ha, hb⟩ hab
          · simp [hb]
        · simp [ha]

theorem collapseU_eq_self : ∀ {l : List Char}, noDU l = true → collapseU l = l
  | [], _ => rfl
  | [_], _ => rfl
  | a :: b :: rest, h => by
    simp only [noDU, Bool.and_eq_true, Bool.not_eq_true] at h
    have hab : ¬(a = '_' ∧ b = '_') := by
      intro ⟨h1, h2⟩
      simp [h1, h2] at h
    simp only [collapseU, if_neg hab]
    exact congrArg _ (collapseU_eq_self h.2)

theorem rstripU_mem {x : Char} : ∀ {l : List Char}, x ∈ rstripU l → x ∈ l
  | [], h => by simp [rstripU] at h
  | a :: rest, h => by
    simp only [rstripU] at h
    split at h
    · simp at h
    · rcases List.mem_cons.mp h with h | h
      · simp [h]
      · exact List.mem_cons_of_mem _ (rstripU_mem h)

theorem rstripU_noTrailU : ∀ (l : List Char), noTrailU (rstripU l) = true
  | [] => rfl
  | a :: rest => by
    simp only [rstripU]
    split
    · rfl
    · next hcond =>
      cases hr : rstripU rest with
      | nil =>
        have ha : ¬(a = '_') := fun he => hcond ⟨he, hr⟩
        simp [noTrailU, ha]
      | cons x xs =>
        have := rstripU_noTrailU rest
        rw [hr] at this
        simpa [noTrailU] using this

theorem rstripU_cons (a : Char) (rest : List Char) :
    rstripU (a :: rest) = if a = '_' ∧ rstripU rest = [] then [] else a :: rstripU rest := rfl

theorem rstripU_eq_self : ∀ {l : List Char}, noTrailU l = true → rstripU l = l
  | [], _ => rfl
  | [c], h => by
    simp only [noTrailU] at h
    have hc : ¬(c = '_') := by simpa using h
    rw [rstripU_cons]
    rw [if_neg (by rintro ⟨h1, _⟩; exact hc h1)]
    rfl
  | a :: b :: rest, h => by
    simp only [noTrailU] at h
    have htail : rstripU (b :: rest) = b :: rest := rstripU_eq_self h
    rw [rstripU_cons, htail, if_neg (by rintro ⟨_, h2⟩; exact absurd h2 (by simp))]

theorem rstripU_head? : ∀ {l : List Char}, rstripU l ≠ [] → (rstripU l).head? = l.head?
  | [], h => absurd rfl h
  | a :: rest, h => by
    rw [rstripU_cons] at h ⊢
    split
    · next hc => rw [if_pos hc] at h; exact absurd rfl h
    · simp

theorem rstripU_noDU : ∀ {l : List Char}, noDU l = true → noDU (rstripU l) = true
  | [], _ => rfl
  | a :: rest, h => by
    have htail : noDU rest = true := by
      cases rest with
      | nil => rfl
      | cons b bs => simp only [noDU, Bool.and_eq_true] at h; exact h.2
    simp only [rstripU]
    split
    · rfl
    · cases hr : rstripU rest with
      | nil => simp [noDU]
      | cons x xs =>
        have hh : (rstripU rest).head? = rest.head? := rstripU_head? (by simp [hr])
        have hnd := rstripU_noDU htail
        rw [hr] at hh hnd
        cases rest with
        | nil => simp [rstripU] at hr
        | cons b bs =>
          have hxb : x = b := by simpa using hh
          subst hxb
          simp only [noDU, Bool.and_eq_true, Bool.not_eq_true] at h ⊢
          exact ⟨h.1, hnd⟩

theorem dropWhile_mem {x : α} {p : α → Bool} : ∀ {l : List α}, x ∈ l.dropWhile p → x ∈ l
  | [], h => by simp [List.dropWhile] at h
  | a :: rest, h => by
    rw [List.dropWhile_cons] at h
    split at h
    · exact List.mem_cons_of_mem _ (dropWhile_mem h)
    · exact h

theorem dropWhile_noDU {p : Char → Bool} :
    ∀ {l : List Char}, noDU l = true → noDU (l.dropWhile p) = true
  | [], _ => rfl
  | a :: rest, h => by
    have htail : noDU rest = true := by
      cases rest with
      | nil => rfl
      | cons b bs => simp only [noDU, Bool.and_eq_true] at h; exact h.2
    rw [List.dropWhile_cons]
    split
    · exact dropWhile_noDU htail
    · exact h

theorem dropWhile_noTrailU {p : Char → Bool} :
    ∀ {l : List Char}, noTrailU l = true → noTrailU (l.dropWhile p) = true
  | [], _ => rfl
  | a :: rest, h => by
    have htail : noTrailU rest = true := by
      cases rest with
      | nil => rfl
      | cons b bs => simpa [noTrailU] using h
    rw [List.dropWhile_cons]
    split
    · exact dropWhile_noTrailU htail
    · exact h

theorem dropWhile_eq_self_of_head {p : α → Bool} {l : List α}
    (h : ∀ c, l.head? = some c → p c = false) : l.dropWhile p = l := by
  cases l with
  | nil => rfl
  | cons a rest =>
    rw [List.dropWhile_cons, if_neg]
    simp [h a rfl]

/-! ## Invariants of the canonicalizer output -/

theorem symbolSub_props (l : List Char) :
    '%' ∉ symbolSub l ∧ '+' ∉ symbolSub l ∧ '/' ∉ symbolSub l ∧ '-' ∉ symbolSub l ∧
    ' ' ∉ symbolSub l ∧ '.' ∉ symbolSub l ∧ '#' ∉ symbolSub l ∧ '\x27' ∉ symbolSub l := by
  unfold symbolSub
  refine ⟨?_, ?_, ?_, ?_, ?_, ?_, ?_, ?_⟩
  · exact subst1_not_mem
      (subst1_not_mem
        (subst1_not_mem
          (subst1_not_mem
            (subst1_not_mem
              (subst1_not_mem
                (subst1_not_mem (subst1_self_not_mem (by decide)) (by decide))
                (by decide))
              (by decide))
            (by decide))
          (by decide))
        (by decide))
      (by decide)
  · exact subst1_not_mem
      (subst1_not_mem
        (subst1_not_mem
          (subst1_not_mem
            (subst1_not_mem
              (subst1_not_mem (subst1_self_not_mem (by decide)) (by decide))
              (by decide))
            (by decide))
          (by decide))
        (by decide))
      (by decide)
  · exact subst1_not_mem
      (subst1_not_mem
        (subst1_not_mem
          (subst1_not_mem
            (subst1_not_mem (subst1_self_not_mem (by decide)) (by decide))
            (by decide))
          (by decide))
        (by decide))
      (by decide)
  · exact subst1_not_mem
      (subst1_not_mem
        (subst1_not_mem (subst1_not_mem (subst1_self_not_mem (by decide)) (by decide))
          (by decide))
        (by decide))
      (by decide)
  · exact subst1_not_mem
      (subst1_not_mem (subst1_not_mem (subst1_self_not_mem (by decide)) (by decide))
        (by decide))
      (by decide)
  · exact subst1_not_mem (subst1_not_mem (subst1_self_not_mem (by decide)) (by decide))
      (by decide)
  · exact subst1_not_mem (subst1_self_not_mem (by decide)) (by decide)
  · exact subst1_self_not_mem (by decide)

theorem symbolSub_id {l : List Char}
    (h1 : '%' ∉ l) (h2 : '+' ∉ l) (h3 : '/' ∉ l) (h4 : '-' ∉ l)
    (h5 : ' ' ∉ l) (h6 : '.' ∉ l) (h7 : '#' ∉ l) (h8 : '\x27' ∉ l) :
    symbolSub l = l := by
  unfold symbolSub
  rw [subst1_id h1, subst1_id h2, subst1_id h3, subst1_id h4, subst1_id h5,
    subst1_id h6, subst1_id h7, subst1_id h8]

theorem parenSub_id {l : List Char} (h : '(' ∉ l) : parenSub l = l := by
  unfold parenSub
  rw [replaceList_id (show ("(% of FGA)".data).head? = some '(' by decide) h]
  rw [replaceList_id (show ("(FG%)".data).head? = some '(' by decide) h]
  rw [replaceList_id (show ("(% AST\x27d)".data).head? = some '(' by decide) h]
  rw [replaceList_id (show ("(Corner 3s)".data).head? = some '(' by decide) h]
  exact reSubParen_id h

theorem cleanChars_eq (l : List Char) :
    cleanChars l =
      if (numPrefix l).2 then rstripU (collapseU (symbolSub (parenSub (numPrefix l).1)))
      else (rstripU (collapseU (symbolSub (parenSub (numPrefix l).1)))).dropWhile
        (fun c => c = '_') := rfl

/-- Every character of the canonicalizer output is a character of the input
to the symbol-substitution stage. -/
theorem cleanChars_mem {l : List Char} {x : Char} (h : x ∈ cleanChars l) :
    x ∈ symbolSub (parenSub (numPrefix l).1) := by
  rw [cleanChars_eq] at h
  by_cases hp : (numPrefix l).2
  · rw [if_pos hp] at h
    exact collapseU_mem (rstripU_mem h)
  · rw [if_neg hp] at h
    exact collapseU_mem (rstripU_mem (dropWhile_mem h))

theorem cleanChars_props (l : List Char) :
    '%' ∉ cleanChars l ∧ '+' ∉ cleanChars l ∧ '/' ∉ cleanChars l ∧ '-' ∉ cleanChars l ∧
    ' ' ∉ cleanChars l ∧ '.' ∉ cleanChars l ∧ '#' ∉ cleanChars l ∧ '\x27' ∉ cleanChars l ∧
    noDU (cleanChars l) = true ∧ noTrailU (cleanChars l) = true := by
  obtain ⟨p1, p2, p3, p4, p5, p6, p7, p8⟩ := symbolSub_props (parenSub (numPrefix l).1)
  have hdu : noDU (cleanChars l) = true := by
    rw [cleanChars_eq]
    split
    · exact rstripU_noDU (collapseU_noDU _)
    · exact dropWhile_noDU (rstripU_noDU (collapseU_noDU _))
  have htr : noTrailU (cleanChars l) = true := by
    rw [cleanChars_eq]
    split
    · exact rstripU_noTrailU _
    · exact dropWhile_noTrailU (rstripU_noTrailU _)
  exact ⟨fun h => p1 (cleanChars_mem h), fun h => p2 (cleanChars_mem h),
    fun h => p3 (cleanChars_mem h), fun h => p4 (cleanChars_mem h),
    fun h => p5 (cleanChars_mem h), fun h => p6 (cleanChars_mem h),
    fun h => p7 (cleanChars_mem h), fun h => p8 (cleanChars_mem h), hdu, htr⟩

/-- A canonical name that is nonempty, has a tame head (no underscore, no
digit), and contains no open paren is a fixed point of the canonicalizer. -/
theorem cleanChars_fixed {y : List Char}
    (hne : y ≠ [])
    (hhead : headOK y = true)
    (hparen : '(' ∉ y)
    (h3 : '%' ∉ y) (h4 : '+' ∉ y) (h5 : '/' ∉ y) (h6 : '-' ∉ y)
    (h7 : ' ' ∉ y) (h8 : '.' ∉ y) (h9 : '#' ∉ y) (h10 : '\x27' ∉ y)
    (hdu : noDU y = true) (htr : noTrailU y = true) :
    cleanChars y = y := by
  obtain ⟨c, rest, rfl⟩ : ∃ c rest, y = c :: rest := by
    cases y with
    | nil => exact absurd rfl hne
    | cons c rest => exact ⟨c, rest, rfl⟩
  have hcu : ¬(c = '_') := by
    intro hc
    simp [headOK, hc] at hhead
  have hcd : c.isDigit = false := by
    by_cases hd : c.isDigit
    · simp [headOK, hd] at hhead
    · simpa using hd
  have hnum : numPrefix (c :: rest) = (c :: rest, false) := by
    unfold numPrefix
    rw [if_neg (by rintro ⟨hm, _⟩; exact h6 hm)]
    rw [if_neg ?h2p, if_neg ?h3p]
    case h2p =>
      intro hpre
      have := @head_of_isPrefixOf '2' "P".data (c :: rest) hpre
      simp at this
      rw [this] at hcd
      simp [Char.isDigit] at hcd
    case h3p =>
      intro hpre
      have := @head_of_isPrefixOf '3' "P".data (c :: rest) hpre
      simp at this
      rw [this] at hcd
      simp [Char.isDigit] at hcd
    simp [hcd]
  rw [cleanChars_eq, hnum]
  simp only [if_false, Bool.false_eq_true]
  rw [parenSub_id hparen, symbolSub_id h3 h4 h5 h6 h7 h8 h9 h10,
    collapseU_eq_self hdu, rstripU_eq_self htr]
  refine dropWhile_eq_self_of_head ?_
  intro d hd
  simp only [List.head?_cons, Option.some.injEq] at hd
  subst hd
  simp [hcu]

/-! ## Claim C9 -/

/-- C9: `clean_column_name` maps every missing (NaN, i.e. non-string) value
and the empty string to the fixed fallback name `Unnamed`; being a total Lean
function over `Option String`, the canonicalizer is total over all cell-name
inputs including non-string missing values. -/
theorem clean_column_name_unnamed_fallback :
    cleanColumnName none = "Unnamed" ∧ cleanColumnName (some "") = "Unnamed" := by
  constructor
  · rfl
  · decide

/-! ## Claim C1 -/

/-- C1 counterexample: `clean_column_name` is not idempotent.  On input
`2P` the output is `_2P` (the underscore protects the digit-leading name),
but a second application strips that underscore and returns `2P`. -/
theorem clean_column_name_not_idempotent_2P :
    cleanColumnName (some (cleanColumnName (some "2P"))) ≠ cleanColumnName (some "2P") := by
  decide

/-- C1 (amended): the Column Canonicalizer is idempotent on every input whose
canonical output is nonempty, does not begin with an underscore or a digit,
and contains no open-paren character.  (Outputs beginning with a protected
underscore — e.g. from inputs `2P`, `3P`, `5` — lose that underscore on a
second pass, and stray parentheses can be rewritten further, as the
counterexample shows.) -/
theorem clean_column_name_idempotent_tame (x : Option String)
    (h1 : cleanColumnName x ≠ "")
    (h2 : headOK (cleanColumnName x).data = true)
    (h3 : '(' ∉ (cleanColumnName x).data) :
    cleanColumnName (some (cleanColumnName x)) = cleanColumnName x := by
  match x with
  | none => decide
  | some s =>
    by_cases hs : s = ""
    · subst hs; decide
    · have hy : cleanColumnName (some s) = String.mk (cleanChars s.data) := by
        simp [cleanColumnName, hs]
      rw [hy] at h1 h2 h3 ⊢
      have hdata : (String.mk (cleanChars s.data)).data = cleanChars s.data := rfl
      rw [hdata] at h2 h3
      have hne : cleanChars s.data ≠ [] := fun h0 => h1 (String.ext h0)
      obtain ⟨p1, p2, p3, p4, p5, p6, p7, p8, pdu, ptr⟩ := cleanChars_props s.data
      have hfix := cleanChars_fixed hne h2 h3 p1 p2 p3 p4 p5 p6 p7 p8 pdu ptr
      have hne2 : String.mk (cleanChars s.data) ≠ "" := h1
      show cleanColumnName (some (String.mk (cleanChars s.data))) = _
      simp only [cleanColumnName, if_neg hne2]
      rw [hfix]

/-- Witness for the amended C1 theorem at the concrete input `FG%`, whose
canonical output `FG_pct` is tame. -/
theorem clean_column_name_idempotent_tame_witness :
    cleanColumnName (some "FG%") ≠ "" ∧
    headOK (cleanColumnName (some "FG%")).data = true ∧
    '(' ∉ (cleanColumnName (some "FG%")).data ∧
    cleanColumnName (some (cleanColumnName (some "FG%"))) = cleanColumnName (some "FG%") :=
  ⟨by decide, by decide, by decide,
    clean_column_name_idempotent_tame (some "FG%") (by decide) (by decide) (by decide)⟩

/-! ## Claim C2 -/

/-- C2 counterexample: on input `_5` the canonicalizer strips the leading
underscore (it was not added by the numeric-escape rules) and returns `5`,
an output that starts with a digit — refuting the claim that the output is
always a legal bare identifier. -/
theorem clean_column_name_digit_leading_output :
    cleanColumnName (some "_5") = "5" ∧ ('5').isDigit = true := by
  decide

/-- C2 (amended): `clean_column_name` is deterministic (equal inputs give
equal outputs), and its output never contains a space, hyphen, percent,
plus, slash, period, hash, or apostrophe, never contains two adjacent
underscores, and never ends with an underscore.  The output can, however,
start with a digit (see the counterexample) or retain other punctuation
such as parentheses, so the stronger claim fails. -/
theorem clean_column_name_deterministic_no_banned (x y : Option String) (hxy : x = y) :
    cleanColumnName x = cleanColumnName y ∧
    ' ' ∉ (cleanColumnName x).data ∧ '-' ∉ (cleanColumnName x).data ∧
    '%' ∉ (cleanColumnName x).data ∧ '+' ∉ (cleanColumnName x).data ∧
    '/' ∉ (cleanColumnName x).data ∧ '.' ∉ (cleanColumnName x).data ∧
    '#' ∉ (cleanColumnName x).data ∧ '\x27' ∉ (cleanColumnName x).data ∧
    noDU (cleanColumnName x).data = true ∧ noTrailU (cleanColumnName x).data = true := by
  subst hxy
  refine ⟨rfl, ?_⟩
  match x with
  | none =>
    refine ⟨?_, ?_, ?_, ?_, ?_, ?_, ?_, ?_, ?_, ?_⟩ <;> decide
  | some s =>
    by_cases hs : s = ""
    · subst hs
      refine ⟨?_, ?_, ?_, ?_, ?_, ?_, ?_, ?_, ?_, ?_⟩ <;> decide
    · have hy : cleanColumnName (some s) = String.mk (cleanChars s.data) := by
        simp [cleanColumnName, hs]
      rw [hy]
      have hdata : (String.mk (cleanChars s.data)).data = cleanChars s.data := rfl
      rw [hdata]
      obtain ⟨p1, p2, p3, p4, p5, p6, p7, p8, pdu, ptr⟩ := cleanChars_props s.data
      exact ⟨p5, p4, p1, p2, p3, p6, p7, p8, pdu, ptr⟩

/-! ## Claim C5 -/

/-- C5: on the two-row input whose awards column holds `MVP-1, AS` and `AS`,
`split_awards_column` emits numeric columns for the discovered codes; the
`MVP` column holds `[1, 0]` and the `AS` column holds `[1, 1]` — i.e. the
per-row values over (MVP, AS) are `[1, 1]` for row one and `[0, 1]` for row
two, as the claim lists them — and the free-text awards column is absent
from the output. -/
theorem split_awards_mvp_as_example :
    (split_awards_column ⟨some [some "MVP-1, AS", some "AS"], none, none, []⟩).awardCols.lookup
        "MVP" = some [1, 0] ∧
    (split_awards_column ⟨some [some "MVP-1, AS", some "AS"], none, none, []⟩).awardCols.lookup
        "AS" = some [1, 1] ∧
    (split_awards_column ⟨some [some "MVP-1, AS", some "AS"], none, none, []⟩).awardsCol =
      none := by
  decide

/-! ## Claim C6 -/

/-- C6 counterexample: a `totals` table that natively carries `FG_pct` loses
it — `normalize_columns` keeps the shooting-percentage columns only in
`adj_shooting`, contradicting the claim that they are also kept in the
totals category where natively present. -/
theorem normalize_drops_pct_from_totals :
    "FG_pct" ∉ normalize_columns ["player_id", "FG_pct"] "totals" := by
  decide

theorem suffixOf_cases (stat : String) :
    suffixOf stat = "" ∨ suffixOf stat = "_total" ∨ suffixOf stat = "_pGame" ∨
    suffixOf stat = "_p36" ∨ suffixOf stat = "_p100" := by
  unfold suffixOf
  split_ifs <;> simp

theorem append_suffix_ne_pct :
    ∀ c ∈ statColsToRename, ∀ p ∈ pctCols,
      c ++ "_total" ≠ p ∧ c ++ "_pGame" ≠ p ∧ c ++ "_p36" ≠ p ∧ c ++ "_p100" ≠ p := by
  decide

theorem pct_facts :
    ∀ p ∈ pctCols, p ∉ statColsToRename ∧ p ≠ "MP" ∧ p ≠ "MP_pGame" ∧ p ≠ "MP_total" ∧
      p ∉ bioCols ∧ p ∉ awardColsList ∧ p ∉ gameCols ∧ p ∈ pctCols := by
  decide

theorem renameCol_pct_id {stat p : String} (hp : p ∈ pctCols) : renameCol stat p = p := by
  obtain ⟨h1, h2, _, _, _, _, _, _⟩ := pct_facts p hp
  unfold renameCol
  rw [if_neg (by rintro ⟨_, hmem⟩; exact h1 hmem),
      if_neg (by rintro ⟨_, hmp⟩; exact h2 hmp),
      if_neg (by rintro ⟨_, hmp⟩; exact h2 hmp)]

theorem renameCol_eq_pct {stat c p : String} (hp : p ∈ pctCols)
    (h : renameCol stat c = p) : c = p := by
  unfold renameCol at h
  split at h
  · next hcond =>
    exfalso
    obtain ⟨k1, k2, k3, k4⟩ := append_suffix_ne_pct c hcond.2 p hp
    rcases suffixOf_cases stat with h0 | h0 | h0 | h0 | h0
    · exact hcond.1 h0
    · rw [h0] at h; exact k1 h
    · rw [h0] at h; exact k2 h
    · rw [h0] at h; exact k3 h
    · rw [h0] at h; exact k4 h
  · split at h
    · exact absurd h.symm (pct_facts p hp).2.2.1
    · split at h
      · exact absurd h.symm (pct_facts p hp).2.2.2.1
      · exact h

theorem mem_if_filter_of_true {q : String → Bool} {x : String} {cond : Prop} [Decidable cond]
    {l : List String} (hq : q x = true) :
    (x ∈ if cond then l.filter q else l) ↔ x ∈ l := by
  split
  · exact ⟨fun h => (List.mem_filter.mp h).1, fun h => List.mem_filter.mpr ⟨h, hq⟩⟩
  · exact Iff.rfl

/-- C6 (amended): the shooting-percentage columns (FG_pct, _3P_pct, _2P_pct,
eFG_pct, FT_pct, TS_pct) are kept only in the adjusted-shooting category and
are dropped from every other category, including totals. -/
theorem normalize_pct_only_adj_shooting (cols : List String) (stat p : String)
    (hp : p ∈ pctCols) :
    p ∈ normalize_columns cols stat ↔ stat = "adj_shooting" ∧ p ∈ cols := by
  obtain ⟨f1, f2, f3, f4, f5, f6, f7, f8⟩ := pct_facts p hp
  have hmap : p ∈ normalize_columns cols stat ↔
      p ∈ dropMP (dropGames (dropPct (dropAwards (dropBio cols stat) stat) stat) stat) stat := by
    unfold normalize_columns
    constructor
    · intro h
      rcases List.mem_map.mp h with ⟨c, hc, hcp⟩
      rw [renameCol_eq_pct hp hcp] at hc
      exact hc
    · intro h
      exact List.mem_map.mpr ⟨p, h, renameCol_pct_id hp⟩
  have hMP : ∀ l : List String, p ∈ dropMP l stat ↔ p ∈ l := by
    intro l
    unfold dropMP
    exact mem_if_filter_of_true (by simp [f2])
  have hGames : ∀ l : List String, p ∈ dropGames l stat ↔ p ∈ l := by
    intro l
    unfold dropGames
    exact mem_if_filter_of_true (by simp [f7])
  have hAwards : ∀ l : List String, p ∈ dropAwards l stat ↔ p ∈ l := by
    intro l
    unfold dropAwards
    exact mem_if_filter_of_true (by simp [f6])
  have hBio : ∀ l : List String, p ∈ dropBio l stat ↔ p ∈ l := by
    intro l
    unfold dropBio
    exact mem_if_filter_of_true (by simp [f5])
  have hPct : ∀ l : List String, p ∈ dropPct l stat ↔ stat = "adj_shooting" ∧ p ∈ l := by
    intro l
    unfold dropPct
    by_cases hadj : stat = "adj_shooting"
    · rw [if_neg (by simpa using hadj)]
      simp [hadj]
    · rw [if_pos (by simpa using hadj)]
      constructor
      · intro h
        have := (List.mem_filter.mp h).2
        simp [f8] at this
      · rintro ⟨h, _⟩
        exact absurd h hadj
  rw [hmap, hMP, hGames, hPct, hAwards, hBio]

/-- Witness for the amended C6 theorem: `FG_pct` survives normalization of
an adjusted-shooting table that carries it. -/
theorem normalize_pct_only_adj_shooting_witness :
    "FG_pct" ∈ pctCols ∧
    ("FG_pct" ∈ normalize_columns ["player_id", "FG_pct"] "adj_shooting" ↔
      "adj_shooting" = "adj_shooting" ∧ "FG_pct" ∈ ["player_id", "FG_pct"]) :=
  ⟨by decide,
    normalize_pct_only_adj_shooting ["player_id", "FG_pct"] "adj_shooting" "FG_pct" (by decide)⟩

/-! ## Claim C7 -/

theorem stripPre_eq_some :
    ∀ {pat l rest : List Char}, stripPre pat l = some rest ↔ l = pat ++ rest
  | [], l, rest => by
    simp only [stripPre, Option.some.injEq, List.nil_append]
  | p :: ps, [], rest => by
    simp [stripPre]
  | p :: ps, c :: cs, rest => by
    simp only [stripPre, List.cons_append, List.cons.injEq]
    by_cases hpc : p = c
    · subst hpc
      rw [if_pos rfl]
      rw [stripPre_eq_some]
      simp
    · rw [if_neg hpc]
      simp only [false_iff, not_and, reduceCtorEq]
      intro hcp
      exact absurd hcp.symm hpc

theorem drop_length_takeWhile {p : α → Bool} :
    ∀ (l : List α), l.drop (l.takeWhile p).length = l.dropWhile p
  | [] => rfl
  | a :: rest => by
    rw [List.takeWhile_cons, List.dropWhile_cons]
    split
    · simpa using drop_length_takeWhile rest
    · simp

theorem takeWhile_prepend {p : α → Bool} {a : List α} {y : α} {b : List α}
    (ha : ∀ x ∈ a, p x = true) (hy : p y = false) :
    (a ++ y :: b).takeWhile p = a := by
  induction a with
  | nil => simp [List.takeWhile_cons, hy]
  | cons x xs ih =>
    rw [List.cons_append, List.takeWhile_cons, if_pos (ha x (by simp))]
    rw [ih (fun z hz => ha z (List.mem_cons_of_mem _ hz))]

/-- Soundness of the head-position match: a successful `tryMatch` exhibits
the matched pattern at the head of the input. -/
theorem tryMatch_sound {l : List Char} {id : String} (h : tryMatch l = some id) :
    id.data ≠ [] ∧ (∀ ch ∈ id.data, isIdChar ch = true) ∧
    ∃ c post, isLowerAZ c = true ∧ l = playerPat c id.data post := by
  unfold tryMatch at h
  cases hsp : stripPre "/players/".data l with
  | none => rw [hsp] at h; exact absurd h (by simp)
  | some rest =>
    rw [hsp] at h
    have hl : l = "/players/".data ++ rest := stripPre_eq_some.mp hsp
    cases rest with
    | nil => exact absurd h (by simp)
    | cons c tail =>
      cases tail with
      | nil => exact absurd h (by simp)
      | cons s rest2 =>
        simp only at h
        split at h
        · next hcs =>
          obtain ⟨hs, hc⟩ := hcs
          subst hs
          split at h
          · next hcond =>
            obtain ⟨hrun, hpref⟩ := hcond
            have hid : id.data = rest2.takeWhile isIdChar := by
              have := (Option.some.injEq _ _).mp h
              rw [← this]
            obtain ⟨post, hpost⟩ : ∃ post,
                rest2.drop (rest2.takeWhile isIdChar).length = ".html".data ++ post := by
              obtain ⟨t, ht⟩ := List.isPrefixOf_iff_prefix.mp hpref
              exact ⟨t, ht.symm⟩
            refine ⟨by rw [hid]; exact hrun, ?_, c, post, hc, ?_⟩
            · intro ch hch
              rw [hid] at hch
              exact List.mem_takeWhile_imp hch
            · have hr2 : rest2 = id.data ++ (".html".data ++ post) := by
                rw [hid]
                conv_lhs => rw [← List.takeWhile_append_dropWhile (p := isIdChar) (l := rest2)]
                rw [← drop_length_takeWhile rest2, hpost]
              rw [hl, hr2]
              rfl
          · exact absurd h (by simp)
        · exact absurd h (by simp)

/-- Completeness of the head-position match on an exact pattern occurrence. -/
theorem tryMatch_complete {c : Char} {idc post : List Char}
    (hc : isLowerAZ c = true) (hne : idc ≠ []) (hall : ∀ ch ∈ idc, isIdChar ch = true) :
    tryMatch (playerPat c idc post) = some (String.mk idc) := by
  unfold tryMatch playerPat
  rw [stripPre_eq_some.mpr rfl]
  simp only
  rw [if_pos ⟨by trivial, hc⟩]
  have hdot : ".html".data ++ post = '.' :: ("html".data ++ post) := rfl
  have hrun : (idc ++ (".html".data ++ post)).takeWhile isIdChar = idc := by
    rw [hdot]
    exact takeWhile_prepend hall (by decide)
  have hdrop : (idc ++ (".html".data ++ post)).drop
      ((idc ++ (".html".data ++ post)).takeWhile isIdChar).length = ".html".data ++ post := by
    rw [hrun]
    exact List.drop_left idc _
  have hpref : ".html".data.isPrefixOf (".html".data ++ post) = true :=
    List.isPrefixOf_iff_prefix.mpr ⟨post, rfl⟩
  rw [if_pos ⟨by rw [hrun]; exact hne, by rw [hdrop]; exact hpref⟩, hrun]

/-- Soundness of the scan: a successful search decomposes the input around a
successful head-position match. -/
theorem searchAux_sound {id : String} :
    ∀ {l : List Char}, searchAux l = some id →
      ∃ pre suffix, l = pre ++ suffix ∧ tryMatch suffix = some id
  | [], h => by simp [searchAux] at h
  | c :: rest, h => by
    unfold searchAux at h
    cases htm : tryMatch (c :: rest) with
    | some s =>
      rw [htm] at h
      simp only [Option.some.injEq] at h
      exact ⟨[], c :: rest, rfl, by rw [htm, h]⟩
    | none =>
      rw [htm] at h
      simp only at h
      obtain ⟨pre, suffix, heq, hmatch⟩ := searchAux_sound h
      exact ⟨c :: pre, suffix, by rw [heq, List.cons_append], hmatch⟩

/-- Completeness of the scan: a head-position match somewhere in the input
makes the search succeed. -/
theorem searchAux_complete {id0 : String} {suffix : List Char}
    (hm : tryMatch suffix = some id0) :
    ∀ (pre : List Char), (searchAux (pre ++ suffix)).isSome = true
  | [] => by
    cases suffix with
    | nil =>
      have hnone : tryMatch ([] : List Char) = none := by decide
      rw [hnone] at hm
      exact absurd hm (by simp)
    | cons c rest =>
      show (searchAux (c :: rest)).isSome = true
      unfold searchAux
      rw [hm]
      rfl
  | x :: pre => by
    show (searchAux (x :: (pre ++ suffix))).isSome = true
    unfold searchAux
    cases htm : tryMatch (x :: (pre ++ suffix)) with
    | some s => rfl
    | none => exact searchAux_complete hm pre

theorem playerPat_ne_nil (c : Char) (idc post : List Char) : playerPat c idc post ≠ [] := by
  unfold playerPat
  simp

/-- C7: `extract_player_id` returns an identifier exactly on strings that
contain a well-shaped `/players/<letter>/<id>.html` reference — the
returned identifier is nonempty, lowercase-alphanumeric, and sits inside
such a reference (leftmost match) — and returns `none` for a non-string
input, the empty string, and every string without such a reference, never
raising (it is a total function). -/
theorem extract_player_id_spec (s pre post id : String) (c : Char) :
    extract_player_id none = none ∧
    (extract_player_id (some s) = some id →
      id.data ≠ [] ∧ (∀ ch ∈ id.data, isIdChar ch = true) ∧
      ∃ c2 pre2 post2, isLowerAZ c2 = true ∧ s.data = pre2 ++ playerPat c2 id.data post2) ∧
    (isLowerAZ c = true → id.data ≠ [] → (∀ ch ∈ id.data, isIdChar ch = true) →
      s.data = pre.data ++ playerPat c id.data post.data →
      (extract_player_id (some s)).isSome = true) := by
  refine ⟨rfl, ?_, ?_⟩
  · intro h
    by_cases hse : s = ""
    · rw [hse] at h
      have hnone : extract_player_id (some "") = none := by decide
      rw [hnone] at h
      exact absurd h (by simp)
    · have h2 : searchAux s.data = some id := by
        rw [show extract_player_id (some s) = if s = "" then none else searchAux s.data
          from rfl] at h
        rw [if_neg hse] at h
        exact h
      obtain ⟨pre2, suffix, heq, hmatch⟩ := searchAux_sound h2
      obtain ⟨hne, hall, c2, post2, hc2, hsuffix⟩ := tryMatch_sound hmatch
      exact ⟨hne, hall, c2, pre2, post2, hc2, by rw [heq, hsuffix]⟩
  · intro hc hne hall hshape
    have hsne : ¬(s = "") := by
      intro h0
      rw [h0] at hshape
      have : pre.data ++ playerPat c id.data post.data = [] := hshape.symm
      rcases List.append_eq_nil.mp this with ⟨_, hp⟩
      exact playerPat_ne_nil c id.data post.data hp
    rw [show extract_player_id (some s) = if s = "" then none else searchAux s.data from rfl]
    rw [if_neg hsne, hshape]
    exact searchAux_complete (tryMatch_complete hc hne hall) pre.data

/-- Witness for the C7 theorem at the canonical example URL
`/players/g/gilgesh01.html`: both the soundness and the completeness
directions fire with their hypotheses discharged concretely. -/
theorem extract_player_id_spec_witness :
    extract_player_id none = none ∧
    (("gilgesh01" : String).data ≠ [] ∧
      (∀ ch ∈ ("gilgesh01" : String).data, isIdChar ch = true) ∧
      ∃ c2 pre2 post2, isLowerAZ c2 = true ∧
        ("/players/g/gilgesh01.html" : String).data =
          pre2 ++ playerPat c2 ("gilgesh01" : String).data post2) ∧
    (extract_player_id (some "/players/g/gilgesh01.html")).isSome = true := by
  obtain ⟨h1, h2, h3⟩ :=
    extract_player_id_spec "/players/g/gilgesh01.html" "" "" "gilgesh01" 'g'
  exact ⟨h1, h2 (by decide), h3 (by decide) (by decide) (by decide) (by decide)⟩

/-! ## Claims C4 and C10: the traded-row consolidator -/

theorem mem_enumFrom_iff {α : Type} {k i : Nat} {r : α} {l : List α} :
    (i, r) ∈ List.enumFrom k l ↔ ∃ m, l.get? m = some r ∧ i = k + m := by
  rw [List.mem_iff_get?]
  constructor
  · rintro ⟨n, hn⟩
    rw [List.enumFrom_get?] at hn
    cases hl : l.get? n with
    | none => rw [hl] at hn; simp at hn
    | some a =>
      rw [hl] at hn
      have hpair : (k + n, a) = (i, r) := by simpa using hn
      have h1 : k + n = i := congrArg Prod.fst hpair
      have h2 : a = r := congrArg Prod.snd hpair
      exact ⟨n, by rw [hl, h2], h1.symm⟩
  · rintro ⟨m, hm, rfl⟩
    exact ⟨m, by rw [List.enumFrom_get?, hm]; rfl⟩

theorem enumFrom_filter_map_snd {α : Type} {q : α → Bool} :
    ∀ (l : List α) (k : Nat),
      ((List.enumFrom k l).filter (fun p => q p.2)).map (fun p => p.2) = l.filter q
  | [], _ => rfl
  | a :: rest, k => by
    rw [List.enumFrom_cons, List.filter_cons, List.filter_cons]
    by_cases hq : q a
    · simp only [hq, if_pos]
      rw [List.map_cons]
      exact congrArg _ (enumFrom_filter_map_snd rest (k + 1))
    · simp only [hq, Bool.false_eq_true, if_neg, if_false]
      exact enumFrom_filter_map_snd rest (k + 1)

theorem enumFrom_filter_congr {α : Type} {q : α → Bool} :
    ∀ {l1 l2 : List α} {k : Nat},
      l1.length = l2.length →
      (∀ m a c, l1.get? m = some a → l2.get? m = some c → q a = q c ∧ (q c = true → a = c)) →
      (List.enumFrom k l1).filter (fun p => q p.2) =
        (List.enumFrom k l2).filter (fun p => q p.2)
  | [], [], _, _, _ => rfl
  | [], c :: _, _, hlen, _ => by simp at hlen
  | a :: _, [], _, hlen, _ => by simp at hlen
  | a :: l1, c :: l2, k, hlen, hpt => by
    have hhead := hpt 0 a c rfl rfl
    have htail : (List.enumFrom (k + 1) l1).filter (fun p => q p.2) =
        (List.enumFrom (k + 1) l2).filter (fun p => q p.2) :=
      enumFrom_filter_congr (by simpa using hlen)
        (fun m a2 c2 ha2 hc2 => hpt (m + 1) a2 c2 ha2 hc2)
    rw [List.enumFrom_cons, List.enumFrom_cons, List.filter_cons, List.filter_cons]
    by_cases hqc : q c = true
    · have hac : a = c := hhead.2 hqc
      subst hac
      simp only [hqc, if_pos]
      exact congrArg _ htail
    · have hqa : ¬(q a = true) := by rw [hhead.1]; exact hqc
      simp only [hqa, hqc, if_neg, Bool.false_eq_true, if_false]
      exact htail

theorem mem_tmIndices {rows : List PRow} {i : Nat} :
    i ∈ tmIndices rows ↔ ∃ b, rows.get? i = some b ∧ tmContains b.team = true := by
  unfold tmIndices
  rw [List.mem_map]
  constructor
  · rintro ⟨⟨i2, r⟩, hmem, rfl⟩
    have h2 := List.mem_filter.mp hmem
    obtain ⟨m, hm, hi⟩ := mem_enumFrom_iff.mp (show (i2, r) ∈ List.enumFrom 0 rows from h2.1)
    refine ⟨r, ?_, h2.2⟩
    rw [hi, Nat.zero_add]
    exact hm
  · rintro ⟨b, hb, htm⟩
    refine ⟨(i, b), List.mem_filter.mpr ⟨?_, htm⟩, rfl⟩
    exact mem_enumFrom_iff.mpr ⟨i, hb, (Nat.zero_add i).symm⟩

theorem hasAggRow_iff {rows : List PRow} {pid : String} :
    hasAggRow rows pid = true ↔
      ∃ i b, rows.get? i = some b ∧ b.player_id = pid ∧ tmContains b.team = true := by
  unfold hasAggRow
  rw [List.any_eq_true]
  constructor
  · rintro ⟨r, hr, hcond⟩
    obtain ⟨i, hi⟩ := List.mem_iff_get?.mp hr
    simp only [Bool.and_eq_true, beq_iff_eq] at hcond
    exact ⟨i, r, hi, hcond.1, hcond.2⟩
  · rintro ⟨i, b, hb, hpid, htm⟩
    refine ⟨b, List.mem_iff_get?.mpr ⟨i, hb⟩, ?_⟩
    simp [hpid, htm]

theorem atMostOneAgg_get {rows : List PRow} (h : atMostOneAgg rows) {i j : Nat} {b c : PRow}
    (hi : rows.get? i = some b) (hj : rows.get? j = some c) (hij : i ≠ j)
    (htb : tmContains b.team = true) (htc : tmContains c.team = true) :
    b.player_id ≠ c.player_id := by
  rcases List.get?_eq_some.mp hi with ⟨hli, hgi⟩
  rcases List.get?_eq_some.mp hj with ⟨hlj, hgj⟩
  rcases Nat.lt_or_ge i j with hlt | hge
  · have hp := (List.pairwise_iff_get.mp h) ⟨i, hli⟩ ⟨j, hlj⟩ hlt
    rw [hgi, hgj] at hp
    exact fun hpid => hp ⟨htb, htc, hpid⟩
  · have hjlt : j < i := Nat.lt_of_le_of_ne hge (fun he => hij he.symm)
    have hp := (List.pairwise_iff_get.mp h) ⟨j, hlj⟩ ⟨i, hli⟩ hjlt
    rw [hgi, hgj] at hp
    exact fun hpid => hp ⟨htc, htb, hpid.symm⟩

theorem tradedSpec_eq_filter_map (rows : List PRow) :
    tradedSpec rows = (rows.filter (fun r => !(specDrop rows r))).map (specRow rows) := by
  unfold tradedSpec
  have aux : ∀ (l : List PRow),
      (l.filterMap (fun r =>
        if tmContains r.team then
          some
            (if aggTeams rows r.player_id = [] then r
             else { r with team := String.intercalate ", " (aggTeams rows r.player_id) })
        else if hasAggRow rows r.player_id ∧ aggTeams rows r.player_id ≠ [] then none
        else some r)) = (l.filter (fun r => !(specDrop rows r))).map (specRow rows) := by
    intro l
    induction l with
    | nil => rfl
    | cons r rest ih =>
      rw [List.filterMap_cons, List.filter_cons]
      by_cases htm : tmContains r.team
      · have hdrop : (!(specDrop rows r)) = true := by
          unfold specDrop
          simp [htm]
        simp only [htm, if_pos, hdrop, if_true]
        rw [List.map_cons, ih]
        refine congrArg (fun z => z :: _) ?_
        by_cases hagg : aggTeams rows r.player_id = []
        · simp [specRow, hagg, htm]
        · simp only [hagg, if_neg, if_false]
          unfold specRow mutRow
          rw [if_pos ⟨by simp [htm], hagg⟩]
      · have htm2 : tmContains r.team = false := by simpa using htm
        simp only [htm, Bool.false_eq_true, if_false, if_neg]
        by_cases hcond : hasAggRow rows r.player_id ∧ aggTeams rows r.player_id ≠ []
        · have hdrop : (!(specDrop rows r)) = false := by
            unfold specDrop
            simp [htm2, hcond.1, hcond.2]
          rw [if_pos hcond, hdrop, if_neg (by simp)]
          exact ih
        · have hdrop : (!(specDrop rows r)) = true := by
            unfold specDrop
            rcases Decidable.not_and_iff_or_not.mp hcond with hc | hc
            · simp [htm2, hc]
            · have : aggTeams rows r.player_id = [] := by
                by_cases hz : aggTeams rows r.player_id = []
                · exact hz
                · exact absurd hz hc
              simp [htm2, this]
          rw [if_neg hcond, hdrop, if_pos rfl, List.map_cons, ih]
          refine congrArg (fun z => z :: _) ?_
          unfold specRow
          rw [if_neg (by rintro ⟨hc, _⟩; rw [htm2] at hc; exact absurd hc (by simp))]
  exact aux rows

theorem enum_eq_enumFrom {α : Type} (l : List α) : l.enum = List.enumFrom 0 l := rfl

theorem get?_isSome_of_lt {α : Type} {l : List α} {n : Nat} (h : n < l.length) :
    ∃ a, l.get? n = some a := by
  cases hl : l.get? n with
  | none => exact absurd (List.get?_eq_none.mp hl) (Nat.not_le.mpr h)
  | some a => exact ⟨a, rfl⟩

theorem mem_teamRowsFor_fst {rows : List PRow} {pid : String} {n : Nat} :
    n ∈ (teamRowsFor rows pid).map (fun p => p.1) ↔
      ∃ c, rows.get? n = some c ∧ c.player_id = pid ∧ tmContains c.team = false := by
  unfold teamRowsFor
  rw [List.mem_map]
  constructor
  · rintro ⟨⟨n2, r⟩, hmem, hfst⟩
    have hn2 : n2 = n := hfst
    subst hn2
    have h2 := List.mem_filter.mp hmem
    obtain ⟨m, hm, hn⟩ := mem_enumFrom_iff.mp (show (n2, r) ∈ List.enumFrom 0 rows from h2.1)
    have hcond := h2.2
    simp only [Bool.and_eq_true, beq_iff_eq, Bool.not_eq_true] at hcond
    refine ⟨r, ?_, hcond.1, by simpa using hcond.2⟩
    rw [hn, Nat.zero_add]
    exact hm
  · rintro ⟨c, hc, hpid, htm⟩
    refine ⟨(n, c), List.mem_filter.mpr ⟨?_, ?_⟩, rfl⟩
    · rw [enum_eq_enumFrom]
      exact mem_enumFrom_iff.mpr ⟨n, hc, (Nat.zero_add n).symm⟩
    · simp [hpid, htm]

/-- The computation performed by one consolidator loop iteration, with the
aggregate row's value made explicit. -/
theorem htpStep_eq (cur : List PRow) (dr : List Nat) (i : Nat) (b : PRow) (ts : List String)
    (hcuri : cur.get? i = some b)
    (hts : ts = filterTeams ((teamRowsFor cur b.player_id).map (fun p => p.2.team))) :
    htpStep (cur, dr) i =
      if teamRowsFor cur b.player_id = [] then (cur, dr)
      else if ts = [] then (cur, dr)
      else
        (cur.set i { b with team := String.intercalate ", " ts },
         dr ++ (teamRowsFor cur b.player_id).map (fun p => p.1)) := by
  subst hts
  have h0 : htpStep (cur, dr) i =
      match cur.get? i with
      | none => (cur, dr)
      | some tmRow =>
        if teamRowsFor cur tmRow.player_id = [] then (cur, dr)
        else if filterTeams ((teamRowsFor cur tmRow.player_id).map (fun p => p.2.team)) = []
          then (cur, dr)
        else
          (cur.set i
            { tmRow with
              team := String.intercalate ", "
                (filterTeams ((teamRowsFor cur tmRow.player_id).map (fun p => p.2.team))) },
           dr ++ (teamRowsFor cur tmRow.player_id).map (fun p => p.1)) := rfl
  rw [h0, hcuri]

theorem get?_det {α : Type} {l : List α} {n : Nat} {a b : α}
    (h1 : l.get? n = some a) (h2 : l.get? n = some b) : a = b := by
  rw [h1] at h2
  exact (Option.some.injEq _ _).mp h2

/-- The consolidator loop invariant: folding `htpStep` over a list of
pending aggregate-row indices — all of distinct players, whose rows are
still untouched, with each pending player's unique aggregate row at its
pending index — turns every row of a pending player into its `specRow`
final value, leaves rows of non-pending players as they are, and extends
the drop list by exactly the per-team row indices of pending players with a
nonempty filtered label list. -/
theorem htp_fold (rows0 : List PRow) (is : List Nat) :
    ∀ (cur : List PRow) (dr : List Nat),
      cur.length = rows0.length →
      (∀ j a c, cur.get? j = some a → rows0.get? j = some c → a.player_id = c.player_id) →
      (∀ i ∈ is, ∃ b, rows0.get? i = some b ∧ tmContains b.team = true) →
      (∀ i ∈ is, ∀ b, rows0.get? i = some b →
        ∀ j a c, cur.get? j = some a → rows0.get? j = some c →
          c.player_id = b.player_id → a = c) →
      (∀ i ∈ is, ∀ b, rows0.get? i = some b → ∀ j c, rows0.get? j = some c →
        c.player_id = b.player_id → tmContains c.team = true → j = i) →
      is.Pairwise (fun i1 i2 => ∀ b1 b2, rows0.get? i1 = some b1 → rows0.get? i2 = some b2 →
        b1.player_id ≠ b2.player_id) →
      (is.foldl htpStep (cur, dr)).1.length = rows0.length ∧
      (∀ j a c, cur.get? j = some a → rows0.get? j = some c →
        (∀ i ∈ is, ∀ b, rows0.get? i = some b → b.player_id ≠ c.player_id) →
        (is.foldl htpStep (cur, dr)).1.get? j = some a) ∧
      (∀ i ∈ is, ∀ b, rows0.get? i = some b → ∀ j c, rows0.get? j = some c →
        c.player_id = b.player_id →
        (is.foldl htpStep (cur, dr)).1.get? j = some (specRow rows0 c)) ∧
      (∀ n, n ∈ (is.foldl htpStep (cur, dr)).2 ↔ n ∈ dr ∨
        ∃ i ∈ is, ∃ b c, rows0.get? i = some b ∧ rows0.get? n = some c ∧
          c.player_id = b.player_id ∧ tmContains c.team = false ∧
          aggTeams rows0 b.player_id ≠ []) := by
  induction is with
  | nil =>
    intro cur dr hlen _ _ _ _ _
    refine ⟨hlen, fun j a c ha _ _ => ha, fun i hi => absurd hi (List.not_mem_nil i), ?_⟩
    intro n
    simp
  | cons i is ih =>
    intro cur dr hlen hpid hpend huntouched honetm hpw
    obtain ⟨hpwhead, hpwtail⟩ := List.pairwise_cons.mp hpw
    obtain ⟨b, hb, htmb⟩ := hpend i (List.mem_cons_self i is)
    have hilt : i < rows0.length := (List.get?_eq_some.mp hb).1
    have hcuri : cur.get? i = some b := by
      obtain ⟨a, ha⟩ := get?_isSome_of_lt (l := cur) (by rw [hlen]; exact hilt)
      have hab : a = b :=
        huntouched i (List.mem_cons_self i is) b hb i a b ha hb rfl
      rw [← hab]
      exact ha
    have hTR : teamRowsFor cur b.player_id = teamRowsFor rows0 b.player_id := by
      unfold teamRowsFor
      rw [enum_eq_enumFrom, enum_eq_enumFrom]
      refine enumFrom_filter_congr (α := PRow)
        (q := fun r => r.player_id == b.player_id && !(tmContains r.team)) hlen ?_
      intro m a c ha hc
      by_cases hpc : c.player_id = b.player_id
      · have hac : a = c :=
          huntouched i (List.mem_cons_self i is) b hb m a c ha hc hpc
        exact ⟨by rw [hac], fun _ => hac⟩
      · have hap : a.player_id = c.player_id := hpid m a c ha hc
        have h1 : (a.player_id == b.player_id) = false :=
          beq_eq_false_iff_ne.mpr (by rw [hap]; exact hpc)
        have h2 : (c.player_id == b.player_id) = false := beq_eq_false_iff_ne.mpr hpc
        constructor
        · simp [h1, h2]
        · intro hqc
          simp only [Bool.and_eq_true, beq_iff_eq] at hqc
          exact absurd hqc.1 hpc
    have hteams : filterTeams ((teamRowsFor rows0 b.player_id).map (fun p => p.2.team)) =
        aggTeams rows0 b.player_id := by
      unfold aggTeams
      refine congrArg _ ?_
      have h1 : (teamRowsFor rows0 b.player_id).map (fun p => p.2.team) =
          ((teamRowsFor rows0 b.player_id).map (fun p => p.2)).map (fun r => r.team) := by
        rw [List.map_map]
        rfl
      rw [h1]
      unfold teamRowsFor
      rw [enum_eq_enumFrom,
        enumFrom_filter_map_snd (α := PRow)
          (q := fun r => r.player_id == b.player_id && !(tmContains r.team))]
    have hstep := htpStep_eq cur dr i b
      (filterTeams ((teamRowsFor cur b.player_id).map (fun p => p.2.team))) hcuri rfl
    rw [hTR, hteams] at hstep
    rw [List.foldl_cons]
    by_cases hagg : aggTeams rows0 b.player_id = []
    · have hstep2 : htpStep (cur, dr) i = (cur, dr) := by
        rw [hstep]
        by_cases hTRnil : teamRowsFor rows0 b.player_id = []
        · rw [if_pos hTRnil]
        · rw [if_neg hTRnil, if_pos hagg]
      rw [hstep2]
      have htail := ih cur dr hlen hpid
        (fun i2 h2 => hpend i2 (List.mem_cons_of_mem i h2))
        (fun i2 h2 => huntouched i2 (List.mem_cons_of_mem i h2))
        (fun i2 h2 => honetm i2 (List.mem_cons_of_mem i h2))
        hpwtail
      obtain ⟨clen, cnon, cpend, cdrops⟩ := htail
      refine ⟨clen, ?_, ?_, ?_⟩
      · intro j a c ha hc hnp
        exact cnon j a c ha hc (fun i2 h2 => hnp i2 (List.mem_cons_of_mem i h2))
      · intro i2 hi2 b2 hb2 j c hc hpideq
        rcases List.mem_cons.mp hi2 with rfl | hi2tail
        · have hb2b : b2 = b := get?_det hb2 hb
          subst hb2b
          have hspec : specRow rows0 c = c := by
            unfold specRow
            rw [if_neg]
            rintro ⟨_, hne⟩
            rw [hpideq] at hne
            exact hne hagg
          rw [hspec]
          have hjlt : j < rows0.length := (List.get?_eq_some.mp hc).1
          have hcurj : cur.get? j = some c := by
            obtain ⟨a, ha⟩ := get?_isSome_of_lt (l := cur) (by rw [hlen]; exact hjlt)
            have hac : a = c :=
              huntouched i2 (List.mem_cons_self i2 is) b2 hb j a c ha hc hpideq
            rw [← hac]
            exact ha
          refine cnon j c c hcurj hc ?_
          intro i3 h3 b3 hb3 hcontra
          exact hpwhead i3 h3 b2 b3 hb hb3 (hpideq.symm.trans hcontra.symm)
        · exact cpend i2 hi2tail b2 hb2 j c hc hpideq
      · intro n
        rw [cdrops n]
        constructor
        · rintro (hdr | ⟨i2, h2, rest⟩)
          · exact Or.inl hdr
          · exact Or.inr ⟨i2, List.mem_cons_of_mem i h2, rest⟩
        · rintro (hdr | ⟨i2, h2, b2, c, hb2, hcn, hpideq, htmc, hne⟩)
          · exact Or.inl hdr
          · rcases List.mem_cons.mp h2 with rfl | h2tail
            · have hb2b : b2 = b := get?_det hb2 hb
              rw [hb2b] at hne
              exact absurd hagg hne
            · exact Or.inr ⟨i2, h2tail, b2, c, hb2, hcn, hpideq, htmc, hne⟩
    · have hTRne : teamRowsFor rows0 b.player_id ≠ [] := by
        intro h0
        apply hagg
        rw [← hteams, h0]
        rfl
      have hstep2 : htpStep (cur, dr) i =
          (cur.set i (mutRow rows0 b),
           dr ++ (teamRowsFor rows0 b.player_id).map (fun p => p.1)) := by
        rw [hstep, if_neg hTRne, if_neg hagg]
        rfl
      rw [hstep2]
      have hlen1 : (cur.set i (mutRow rows0 b)).length = rows0.length := by
        rw [List.length_set]
        exact hlen
      have hget_set_i : (cur.set i (mutRow rows0 b)).get? i = some (mutRow rows0 b) := by
        rw [List.get?_set_eq, hcuri]
        rfl
      have hget_set_ne : ∀ j, j ≠ i → (cur.set i (mutRow rows0 b)).get? j = cur.get? j := by
        intro j hj
        exact List.get?_set_ne _ _ (fun he => hj he.symm)
      have hpid1 : ∀ j a c, (cur.set i (mutRow rows0 b)).get? j = some a →
          rows0.get? j = some c → a.player_id = c.player_id := by
        intro j a c ha hc
        by_cases hji : j = i
        · subst hji
          have hab : a = mutRow rows0 b := get?_det ha hget_set_i
          have hcb : c = b := get?_det hc hb
          rw [hab, hcb]
          rfl
        · rw [hget_set_ne j hji] at ha
          exact hpid j a c ha hc
      have huntouched1 : ∀ i2 ∈ is, ∀ b2, rows0.get? i2 = some b2 →
          ∀ j a c, (cur.set i (mutRow rows0 b)).get? j = some a → rows0.get? j = some c →
            c.player_id = b2.player_id → a = c := by
        intro i2 h2 b2 hb2 j a c ha hc hpideq
        by_cases hji : j = i
        · subst hji
          have hcb : c = b := get?_det hc hb
          exfalso
          exact hpwhead i2 h2 b b2 hb hb2 (by rw [← hpideq, hcb])
        · rw [hget_set_ne j hji] at ha
          exact huntouched i2 (List.mem_cons_of_mem i h2) b2 hb2 j a c ha hc hpideq
      have htail := ih (cur.set i (mutRow rows0 b))
        (dr ++ (teamRowsFor rows0 b.player_id).map (fun p => p.1)) hlen1 hpid1
        (fun i2 h2 => hpend i2 (List.mem_cons_of_mem i h2))
        huntouched1
        (fun i2 h2 => honetm i2 (List.mem_cons_of_mem i h2))
        hpwtail
      obtain ⟨clen, cnon, cpend, cdrops⟩ := htail
      refine ⟨clen, ?_, ?_, ?_⟩
      · intro j a c ha hc hnp
        have hji : j ≠ i := by
          intro he
          subst he
          have hcb : c = b := get?_det hc hb
          exact hnp j (List.mem_cons_self j is) b hb (by rw [hcb])
        refine cnon j a c ?_ hc (fun i2 h2 => hnp i2 (List.mem_cons_of_mem i h2))
        rw [hget_set_ne j hji]
        exact ha
      · intro i2 hi2 b2 hb2 j c hc hpideq
        rcases List.mem_cons.mp hi2 with rfl | hi2tail
        · have hb2b : b2 = b := get?_det hb2 hb
          by_cases hji : j = i2
          · have hc2 : rows0.get? i2 = some c := by
              rw [← hji]
              exact hc
            have hcb : c = b := get?_det hc2 hb
            have hspec : specRow rows0 c = mutRow rows0 c := by
              unfold specRow
              rw [if_pos ⟨by rw [hcb]; exact htmb, by rw [hcb]; exact hagg⟩]
            rw [hspec]
            have hmr : mutRow rows0 c = mutRow rows0 b := by rw [hcb]
            rw [hmr]
            have hset : (cur.set i2 (mutRow rows0 b)).get? j = some (mutRow rows0 b) := by
              rw [hji]
              exact hget_set_i
            refine cnon j (mutRow rows0 b) c hset hc ?_
            intro i3 h3 b3 hb3 hcontra
            exact hpwhead i3 h3 b b3 hb hb3
              ((congrArg PRow.player_id hcb).symm.trans hcontra.symm)
          · have htmc : tmContains c.team = false := by
              by_cases htc : tmContains c.team = true
              · exact absurd (honetm i2 (List.mem_cons_self i2 is) b hb j c hc
                  (by rw [hpideq, hb2b]) htc) hji
              · simpa using htc
            have hspec : specRow rows0 c = c := by
              unfold specRow
              rw [if_neg]
              rintro ⟨hc2, _⟩
              rw [htmc] at hc2
              exact absurd hc2 (by simp)
            rw [hspec]
            have hjlt : j < rows0.length := (List.get?_eq_some.mp hc).1
            have hcurj : cur.get? j = some c := by
              obtain ⟨a, ha⟩ := get?_isSome_of_lt (l := cur) (by rw [hlen]; exact hjlt)
              have hac : a = c :=
                huntouched i2 (List.mem_cons_self i2 is) b2 hb2 j a c ha hc hpideq
              rw [← hac]
              exact ha
            refine cnon j c c ?_ hc ?_
            · rw [hget_set_ne j hji]
              exact hcurj
            · intro i3 h3 b3 hb3 hcontra
              exact hpwhead i3 h3 b b3 hb hb3
                ((congrArg PRow.player_id hb2b).symm.trans (hpideq.symm.trans hcontra.symm))
        · exact cpend i2 hi2tail b2 hb2 j c hc hpideq
      · intro n
        rw [cdrops n, List.mem_append]
        constructor
        · rintro ((hdr | hteamrows) | ⟨i2, h2, rest⟩)
          · exact Or.inl hdr
          · obtain ⟨c, hcn, hpideq, htmc⟩ := mem_teamRowsFor_fst.mp hteamrows
            exact Or.inr ⟨i, List.mem_cons_self i is, b, c, hb, hcn, hpideq, htmc, hagg⟩
          · exact Or.inr ⟨i2, List.mem_cons_of_mem i h2, rest⟩
        · rintro (hdr | ⟨i2, h2, b2, c, hb2, hcn, hpideq, htmc, hne⟩)
          · exact Or.inl (Or.inl hdr)
          · rcases List.mem_cons.mp h2 with rfl | h2tail
            · have hb2b : b2 = b := get?_det hb2 hb
              rw [hb2b] at hpideq
              exact Or.inl (Or.inr (mem_teamRowsFor_fst.mpr ⟨c, hcn, hpideq, htmc⟩))
            · exact Or.inr ⟨i2, h2tail, b2, c, hb2, hcn, hpideq, htmc, hne⟩

/-- The position components of `List.enumFrom` are strictly increasing. -/
theorem enumFrom_pairwise_fst {α : Type} (k : Nat) (l : List α) :
    (List.enumFrom k l).Pairwise (fun p q => p.1 < q.1) := by
  induction l generalizing k with
  | nil => exact List.Pairwise.nil
  | cons a rest ih =>
    rw [show List.enumFrom k (a :: rest) = (k, a) :: List.enumFrom (k + 1) rest from rfl]
    refine List.Pairwise.cons ?_ (ih (k + 1))
    rintro ⟨i, r⟩ hq
    obtain ⟨m, _, h1⟩ := mem_enumFrom_iff.mp hq
    show k < i
    omega

/-- Boolean membership test on index lists agrees with membership. -/
theorem contains_nat_iff {l : List Nat} {n : Nat} : l.contains n = true ↔ n ∈ l := by
  unfold List.contains
  exact List.elem_iff

/-- Under `atMostOneAgg`, distinct aggregate-row indices belong to distinct
players. -/
theorem tmIndices_pairwise (rows : List PRow) (hone : atMostOneAgg rows) :
    (tmIndices rows).Pairwise (fun i1 i2 => ∀ b1 b2, rows.get? i1 = some b1 →
      rows.get? i2 = some b2 → b1.player_id ≠ b2.player_id) := by
  unfold tmIndices
  rw [List.pairwise_map]
  have h0 : (rows.enum.filter (fun p => tmContains p.2.team)).Pairwise
      (fun p q => p.1 < q.1) :=
    List.Pairwise.sublist (List.filter_sublist _) (enumFrom_pairwise_fst 0 rows)
  refine List.Pairwise.imp_of_mem ?_ h0
  rintro ⟨i1, r1⟩ ⟨i2, r2⟩ hp hq hlt b1 b2 hb1 hb2
  have hp2 := List.mem_filter.mp hp
  have hq2 := List.mem_filter.mp hq
  obtain ⟨m1, hg1, he1⟩ := mem_enumFrom_iff.mp hp2.1
  obtain ⟨m2, hg2, he2⟩ := mem_enumFrom_iff.mp hq2.1
  have hr1 : rows.get? i1 = some r1 := by rw [he1, Nat.zero_add]; exact hg1
  have hr2 : rows.get? i2 = some r2 := by rw [he2, Nat.zero_add]; exact hg2
  rw [get?_det hb1 hr1, get?_det hb2 hr2]
  exact atMostOneAgg_get hone hr1 hr2 (Nat.ne_of_lt hlt) hp2.2 hq2.2

/-- The drop step of `handleTradedRows`: filtering an enumerated mapped list
by a drop-index list whose membership agrees pointwise with a per-row test
equals filtering by the test before mapping. -/
theorem finalFilter {α β : Type} (f : α → β) (D : α → Bool) :
    ∀ (l : List α) (k : Nat) (dr : List Nat),
      (∀ m c, l.get? m = some c → dr.contains (k + m) = D c) →
      ((List.enumFrom k (l.map f)).filter (fun p => !(dr.contains p.1))).map
          (fun p => p.2) =
        (l.filter (fun c => !(D c))).map f := by
  intro l
  induction l with
  | nil => intro k dr _; rfl
  | cons a rest ih =>
    intro k dr h
    have h0 : dr.contains k = D a := by
      have h1 := h 0 a rfl
      rw [Nat.add_zero] at h1
      exact h1
    have htail : ∀ m c, rest.get? m = some c → dr.contains (k + 1 + m) = D c := by
      intro m c hm
      have h1 := h (m + 1) c hm
      rw [show k + (m + 1) = k + 1 + m by omega] at h1
      exact h1
    rw [List.map_cons,
      show List.enumFrom k (f a :: rest.map f) = (k, f a) :: List.enumFrom (k + 1) (rest.map f)
        from rfl,
      List.filter_cons, List.filter_cons]
    by_cases hD : D a = true
    · have hk : k ∈ dr := contains_nat_iff.mp (h0.trans hD)
      rw [if_neg (by simp [hk]), if_neg (by simp [hD])]
      exact ih (k + 1) dr htail
    · have hDf : D a = false := by
        cases he : D a with
        | false => rfl
        | true => exact absurd he hD
      have hk : k ∉ dr := fun hm =>
        absurd (contains_nat_iff.mpr hm) (by rw [h0, hDf]; decide)
      rw [if_pos (by simp [hk]), if_pos (by simp [hDf]), List.map_cons, List.map_cons,
        ih (k + 1) dr htail]

/-- Under `atMostOneAgg`, the consolidator body realises the amended
specification. -/
theorem handleTradedRows_eq_tradedSpec (rows : List PRow) (hone : atMostOneAgg rows) :
    handleTradedRows rows = tradedSpec rows := by
  obtain ⟨clen, cnon, cpend, cdrops⟩ :=
    htp_fold rows (tmIndices rows) rows []
      rfl
      (fun j a c ha hc => by rw [get?_det ha hc])
      (fun i hi => mem_tmIndices.mp hi)
      (fun i _ b _ j a c ha hc _ => get?_det ha hc)
      (fun i hi b hb j c hc hpideq htmc => by
        by_cases hji : j = i
        · exact hji
        · obtain ⟨b0, hb0, htmb0⟩ := mem_tmIndices.mp hi
          have htmb : tmContains b.team = true := (get?_det hb0 hb) ▸ htmb0
          exact absurd hpideq
            ((atMostOneAgg_get hone hb hc (fun he => hji he.symm) htmb htmc).symm))
      (tmIndices_pairwise rows hone)
  have hfin : ((tmIndices rows).foldl htpStep (rows, ([] : List Nat))).1 =
      rows.map (specRow rows) := by
    apply List.ext
    intro n
    rw [List.get?_map]
    by_cases hn : n < rows.length
    · obtain ⟨c, hc⟩ := get?_isSome_of_lt hn
      rw [hc]
      show _ = some (specRow rows c)
      by_cases hAgg : hasAggRow rows c.player_id = true
      · obtain ⟨i, b, hb, hbpid, htmb⟩ := hasAggRow_iff.mp hAgg
        exact cpend i (mem_tmIndices.mpr ⟨b, hb, htmb⟩) b hb n c hc hbpid.symm
      · have hspec : specRow rows c = c := by
          unfold specRow
          rw [if_neg]
          rintro ⟨htm, _⟩
          exact hAgg (hasAggRow_iff.mpr ⟨n, c, hc, rfl, htm⟩)
        rw [hspec]
        refine cnon n c c hc hc ?_
        intro i hi b hb hbc
        obtain ⟨b0, hb0, htmb0⟩ := mem_tmIndices.mp hi
        exact hAgg (hasAggRow_iff.mpr ⟨i, b, hb, hbc, (get?_det hb0 hb) ▸ htmb0⟩)
    · have h1 : ((tmIndices rows).foldl htpStep (rows, ([] : List Nat))).1.get? n = none :=
        List.get?_eq_none.mpr (by rw [clen]; omega)
      have h2 : rows.get? n = none := List.get?_eq_none.mpr (by omega)
      rw [h1, h2]
      rfl
  have hdrops : ∀ n, n ∈ ((tmIndices rows).foldl htpStep (rows, ([] : List Nat))).2 ↔
      ∃ c, rows.get? n = some c ∧ specDrop rows c = true := by
    intro n
    rw [cdrops n]
    constructor
    · rintro (h0 | ⟨i, hi, b, c, hb, hc, hpideq, htmc, hne⟩)
      · exact absurd h0 (List.not_mem_nil n)
      · refine ⟨c, hc, ?_⟩
        obtain ⟨b0, hb0, htmb0⟩ := mem_tmIndices.mp hi
        have hAgg : hasAggRow rows c.player_id = true :=
          hasAggRow_iff.mpr ⟨i, b, hb, hpideq.symm, (get?_det hb0 hb) ▸ htmb0⟩
        have hne2 : aggTeams rows c.player_id ≠ [] := by
          rw [hpideq]
          exact hne
        unfold specDrop
        rw [htmc, hAgg, decide_eq_false hne2]
        rfl
    · rintro ⟨c, hc, hd⟩
      unfold specDrop at hd
      have htmc : tmContains c.team = false := by
        cases he : tmContains c.team with
        | false => rfl
        | true =>
          rw [he] at hd
          simp at hd
      have hAgg : hasAggRow rows c.player_id = true := by
        cases he : hasAggRow rows c.player_id with
        | true => rfl
        | false =>
          rw [he] at hd
          simp at hd
      have hne : aggTeams rows c.player_id ≠ [] := by
        intro h0
        rw [htmc, hAgg, h0] at hd
        simp at hd
      obtain ⟨i, b, hb, hbpid, htmb⟩ := hasAggRow_iff.mp hAgg
      refine Or.inr ⟨i, mem_tmIndices.mpr ⟨b, hb, htmb⟩, b, c, hb, hc, hbpid.symm, htmc, ?_⟩
      rw [hbpid]
      exact hne
  rw [show handleTradedRows rows =
      (if ((tmIndices rows).foldl htpStep (rows, [])).2 = [] then
        ((tmIndices rows).foldl htpStep (rows, [])).1
      else
        ((((tmIndices rows).foldl htpStep (rows, [])).1.enum.filter
            (fun p => !(((tmIndices rows).foldl htpStep (rows, [])).2.contains p.1))).map
          (fun p => p.2))) from rfl,
    tradedSpec_eq_filter_map]
  by_cases hz : ((tmIndices rows).foldl htpStep (rows, ([] : List Nat))).2 = []
  · rw [if_pos hz, hfin]
    have hfilter : rows.filter (fun r => !(specDrop rows r)) = rows := by
      rw [List.filter_eq_self]
      intro c hcmem
      obtain ⟨m, hm⟩ := List.mem_iff_get?.mp hcmem
      cases hdc : specDrop rows c with
      | false => rfl
      | true => exact absurd (hz ▸ ((hdrops m).mpr ⟨c, hm, hdc⟩)) (List.not_mem_nil m)
    rw [hfilter]
  · rw [if_neg hz, hfin, enum_eq_enumFrom]
    refine finalFilter (specRow rows) (specDrop rows) rows 0
      ((tmIndices rows).foldl htpStep (rows, [])).2 ?_
    intro m c hm
    rw [Nat.zero_add]
    cases hdc : specDrop rows c with
    | true => exact contains_nat_iff.mpr ((hdrops m).mpr ⟨c, hm, hdc⟩)
    | false =>
      cases hcon : ((tmIndices rows).foldl htpStep (rows, ([] : List Nat))).2.contains m with
      | false => rfl
      | true =>
        obtain ⟨c2, hc2, hdc2⟩ := (hdrops m).mp (contains_nat_iff.mp hcon)
        rw [get?_det hc2 hm] at hdc2
        rw [hdc] at hdc2
        exact absurd hdc2 (by decide)

/-! ## Claim C4 -/

/-- Counterexample to claim C4 as stated: with two aggregate-marked rows for
the same player, the loop processes the second marker against the already
mutated table, so the surviving row carries the label list twice, while the
claimed per-row description yields two aggregate rows each carrying the
labels once. -/
theorem handle_traded_players_double_aggregate :
    (handle_traded_players ⟨true, true, exDoubleAgg⟩).rows ≠ claimTradedSpec exDoubleAgg := by
  decide

/-- Claim C4 (corrected): on a frame carrying both `player_id` and `Team`
whose rows have at most one aggregate-marked row per player,
`handle_traded_players` rewrites every aggregate-marked row whose filtered
team-label list is nonempty to carry the labels joined by a comma-space in
table order and deletes that player's per-team rows; an aggregate-marked row
whose filtered label list is empty (in particular one with zero matching
per-team rows) is left unchanged and its per-team rows are kept. -/
theorem handle_traded_players_consolidates (df : PDF)
    (hpid : df.hasPlayerId = true) (hteam : df.hasTeam = true)
    (hone : atMostOneAgg df.rows) :
    handle_traded_players df = { df with rows := tradedSpec df.rows } := by
  unfold handle_traded_players
  by_cases hr : df.rows = []
  · rw [if_pos (Or.inl hr)]
    have h2 : tradedSpec df.rows = df.rows := by rw [hr]; rfl
    rw [h2]
  · rw [if_neg (by
      rintro (h | h | h)
      · exact hr h
      · exact absurd (hpid.symm.trans h) (by decide)
      · exact absurd (hteam.symm.trans h) (by decide))]
    exact congrArg (fun r => { df with rows := r })
      (handleTradedRows_eq_tradedSpec df.rows hone)

/-- Witness for C4: a traded player with one aggregate-marked row and two
team rows, plus an untraded player; all hypotheses hold and the output
consolidates to a single joined row. -/
theorem handle_traded_players_consolidates_witness :
    exTradedDf.hasPlayerId = true ∧ exTradedDf.hasTeam = true ∧
      atMostOneAgg exTradedDf.rows ∧
      handle_traded_players exTradedDf = { exTradedDf with rows := tradedSpec exTradedDf.rows } :=
  ⟨rfl, rfl, by unfold atMostOneAgg; decide,
    handle_traded_players_consolidates exTradedDf rfl rfl (by unfold atMostOneAgg; decide)⟩

/-! ## Claim C10 -/

/-- Claim C10: the consolidator guard returns the frame unchanged when the
row list is empty or either column is missing; an index is aggregate-marked
exactly when its row's Team value contains the substring `TM`; and every
label in a player's joined team list is free of the `TM` substring. -/
theorem handle_traded_players_tm_detection (df : PDF) (rows : List PRow) (i : Nat)
    (pid t : String) :
    (df.rows = [] ∨ df.hasPlayerId = false ∨ df.hasTeam = false →
      handle_traded_players df = df) ∧
    (i ∈ tmIndices rows ↔
      ∃ b, rows.get? i = some b ∧ containsSub "TM".data b.team.data = true) ∧
    (t ∈ aggTeams rows pid → containsSub "TM".data t.data = false) := by
  refine ⟨?_, mem_tmIndices, ?_⟩
  · intro h
    unfold handle_traded_players
    rw [if_pos h]
  · intro ht
    unfold aggTeams filterTeams at ht
    have hcond := (List.mem_filter.mp ht).2
    simp only [Bool.and_eq_true] at hcond
    have h4 := hcond.2
    have h5 : tmContains t = false := by simpa using h4
    exact h5

/-- Witness for C10 at concrete inputs: a frame flagged as missing
`player_id` passes through unchanged, index 0 of the example table is
aggregate-marked, and the label `A` of the joined list is `TM`-free. -/
theorem handle_traded_players_tm_detection_witness :
    handle_traded_players ⟨false, true, exDoubleAgg⟩ = ⟨false, true, exDoubleAgg⟩ ∧
      (0 ∈ tmIndices exDoubleAgg) ∧ containsSub "TM".data "A".data = false := by
  obtain ⟨h1, h2, h3⟩ :=
    handle_traded_players_tm_detection ⟨false, true, exDoubleAgg⟩ exDoubleAgg 0 "p" "A"
  exact ⟨h1 (Or.inr (Or.inl rfl)), h2.mpr ⟨⟨"p", "2TM", []⟩, by decide, by decide⟩,
    h3 (by decide)⟩

/-! ## Claim C8 -/

/-- C8 counterexample: with four present positional identifiers and three
data rows (a count mismatch), the code does NOT trigger the name-based
fallback — it truncates the surplus and assigns positionally — so `Bob`
receives `aaa01` even though the name map would give `bbb01`. -/
theorem aligner_no_fallback_on_surplus :
    (validIds exHrows).length = 4 ∧ exAlignDf.rows.length = 3 ∧
    fallbackCond exHrows exAlignDf.rows.length = false ∧
    alignerOutput exHrows exAlignDf =
      [("aaa01", ["Bob"]), ("bbb01", ["Carol"]), ("ccc01", ["Dave"])] ∧
    (nameToId exHrows).lookup "Bob" = some "bbb01" := by
  decide

theorem replicate_any_isNone {k : Nat} (hk : 0 < k) :
    (List.replicate k (none : Option String)).any (fun p => p.isNone) = true := by
  cases k with
  | zero => exact absurd hk (by simp)
  | succ m => simp [List.replicate]

theorem length_filterMap_eq_countP {f : α → Option β} :
    ∀ (l : List α), (l.filterMap f).length = l.countP (fun a => (f a).isSome)
  | [] => rfl
  | a :: rest => by
    rw [List.filterMap_cons, List.countP_cons]
    cases hfa : f a with
    | none => simp [hfa, length_filterMap_eq_countP rest]
    | some b => simp [hfa, length_filterMap_eq_countP rest]

/-- C8 (amended): the name-based fallback is triggered exactly when fewer
positional identifiers are present than there are data rows (a surplus is
truncated positionally, without fallback); under the fallback with a
player-name column present, each data row's trimmed player-name cell is
looked up in the name→identifier map built from the markup rows; and the
output keeps exactly the rows whose identifier resolved — every dropped row
is one with an absent identifier, so no output row lacks a `player_id`. -/
theorem aligner_fallback_spec (hrows : List HRow) (df : AlignDF) (ci : Nat) :
    (fallbackCond hrows df.rows.length = true ↔
      (validIds hrows).length < df.rows.length) ∧
    (fallbackCond hrows df.rows.length = true → findNameCol df.cols = some ci →
      resolvedIds hrows df =
        df.rows.map (fun row => (nameToId hrows).lookup (pyStrip (row.getD ci "")))) ∧
    (∀ prow ∈ alignerOutput hrows df, (some prow.1, prow.2) ∈ alignerPreDrop hrows df) ∧
    (alignerOutput hrows df).length =
      (alignerPreDrop hrows df).countP (fun q => q.1.isSome) := by
  refine ⟨?_, ?_, ?_, ?_⟩
  · unfold fallbackCond idsForDf
    by_cases hle : df.rows.length ≤ (validIds hrows).length
    · rw [if_pos hle]
      have hlen : (((validIds hrows).take df.rows.length).map some).length =
          df.rows.length := by
        rw [List.length_map, List.length_take]
        exact Nat.min_eq_left hle
      have hany : (((validIds hrows).take df.rows.length).map some).any
          (fun p => p.isNone) = false := by
        rw [List.any_eq_false]
        intro x hx
        rcases List.mem_map.mp hx with ⟨a, _, rfl⟩
        simp
      rw [hlen, hany]
      simp [Nat.not_lt.mpr hle]
    · rw [if_neg hle]
      have hlt := Nat.not_le.mp hle
      have hlen : ((validIds hrows).map some ++
          List.replicate (df.rows.length - (validIds hrows).length) none).length =
          df.rows.length := by
        rw [List.length_append, List.length_map, List.length_replicate]
        exact Nat.add_sub_cancel' (Nat.le_of_lt hlt)
      have hany : ((validIds hrows).map some ++
          List.replicate (df.rows.length - (validIds hrows).length) none).any
          (fun p => p.isNone) = true := by
        rw [List.any_append, Bool.or_eq_true]
        exact Or.inr (replicate_any_isNone (Nat.sub_pos_of_lt hlt))
      rw [hlen, hany]
      simp [hlt]
  · intro hfb hnc
    unfold resolvedIds
    rw [if_pos hfb]
    unfold fallbackIds
    rw [hnc]
  · intro prow hmem
    rcases List.mem_filterMap.mp hmem with ⟨q, hq, hfq⟩
    match q, hfq with
    | (some pid, row), hfq =>
      simp only [Option.some.injEq, Prod.mk.injEq] at hfq
      obtain ⟨h1, h2⟩ : pid = prow.1 ∧ row = prow.2 := by
        have := Prod.ext_iff.mp hfq
        exact ⟨this.1, this.2⟩
      subst h1; subst h2
      exact hq
    | (none, row), hfq => simp at hfq
  · unfold alignerOutput
    rw [length_filterMap_eq_countP]
    refine List.countP_congr ?_
    intro q _
    match q with
    | (some pid, row) => simp
    | (none, row) => simp

/-- Witness for the amended C8 theorem: one markup link and two data rows,
so the fallback fires and resolves `Alice` by name while `Zed` is
dropped. -/
theorem aligner_fallback_spec_witness :
    (fallbackCond exFallbackHrows exFallbackDf.rows.length = true ↔
      (validIds exFallbackHrows).length < exFallbackDf.rows.length) ∧
    resolvedIds exFallbackHrows exFallbackDf =
      exFallbackDf.rows.map
        (fun row => (nameToId exFallbackHrows).lookup (pyStrip (row.getD 0 ""))) ∧
    (∀ prow ∈ alignerOutput exFallbackHrows exFallbackDf,
      (some prow.1, prow.2) ∈ alignerPreDrop exFallbackHrows exFallbackDf) ∧
    (alignerOutput exFallbackHrows exFallbackDf).length =
      (alignerPreDrop exFallbackHrows exFallbackDf).countP (fun q => q.1.isSome) := by
  obtain ⟨h1, h2, h3, h4⟩ := aligner_fallback_spec exFallbackHrows exFallbackDf 0
  exact ⟨h1, h2 (by decide) (by decide), h3, h4⟩

/-! ## Claim C3 -/

theorem dfWithYear_year {raw : List (String × List String)} {y : Nat} {r : MRow}
    (h : r ∈ dfWithYear raw y) : r.year = y := by
  rcases List.mem_map.mp h with ⟨a, _, rfl⟩
  rfl

/-- C3: the combined-file update of `save_to_csv` preserves verbatim every
prior row whose year differs from the incoming season, discards every prior
row with the incoming year (any year-`y` row of the result is an incoming
row), and appends every incoming row; consequently merging the same season
twice with identical input equals merging it once (same rows, hence same
row count and values), and after merging season `y` then season `y + 1` the
year-`y` rows of the cumulative table are exactly those after the first
merge. -/
theorem save_to_csv_merge_properties (prior : List MRow)
    (raw rawNext : List (String × List String)) (y : Nat) (r : MRow) :
    (r ∈ prior → r.year ≠ y → r ∈ updateCombined prior (dfWithYear raw y) y) ∧
    (r ∈ updateCombined prior (dfWithYear raw y) y → r.year = y → r ∈ dfWithYear raw y) ∧
    (r ∈ dfWithYear raw y → r ∈ updateCombined prior (dfWithYear raw y) y) ∧
    updateCombined (updateCombined prior (dfWithYear raw y) y) (dfWithYear raw y) y =
      updateCombined prior (dfWithYear raw y) y ∧
    (updateCombined (updateCombined prior (dfWithYear raw y) y) (dfWithYear rawNext (y + 1))
        (y + 1)).filter (fun s => s.year == y) =
      (updateCombined prior (dfWithYear raw y) y).filter (fun s => s.year == y) := by
  refine ⟨?_, ?_, ?_, ?_, ?_⟩
  · intro hmem hne
    exact List.mem_append.mpr (Or.inl (List.mem_filter.mpr ⟨hmem, by simpa using hne⟩))
  · intro hmem hy
    rcases List.mem_append.mp hmem with h | h
    · have := (List.mem_filter.mp h).2
      rw [hy] at this
      simp at this
    · exact h
  · intro hmem
    exact List.mem_append.mpr (Or.inr hmem)
  · unfold updateCombined
    rw [List.filter_append]
    have hfil : (dfWithYear raw y).filter (fun r => r.year != y) = [] := by
      rw [List.filter_eq_nil_iff]
      intro a ha
      simp [dfWithYear_year ha]
    have hff : (prior.filter (fun r => r.year != y)).filter (fun r => r.year != y) =
        prior.filter (fun r => r.year != y) := by
      rw [List.filter_eq_self]
      intro a ha
      exact (List.mem_filter.mp ha).2
    rw [hfil, hff, List.append_nil]
  · unfold updateCombined
    rw [List.filter_append]
    have hnext : (dfWithYear rawNext (y + 1)).filter (fun s => s.year == y) = [] := by
      rw [List.filter_eq_nil_iff]
      intro a ha
      simp [dfWithYear_year ha]
    rw [hnext, List.append_nil, List.filter_filter]
    refine List.filter_congr ?_
    intro s _
    by_cases hy : s.year = y
    · simp [hy]
    · simp [hy]

/-- Witness for the C3 theorem at a concrete store: one prior 2023 row, one
prior 2024 row, one incoming 2024 row. -/
theorem save_to_csv_merge_properties_witness :
    (⟨"a", 2023, ["x"]⟩ ∈ ([⟨"a", 2023, ["x"]⟩, ⟨"b", 2024, ["y"]⟩] : List MRow) →
      (2023 : Nat) ≠ 2024 →
      (⟨"a", 2023, ["x"]⟩ : MRow) ∈
        updateCombined [⟨"a", 2023, ["x"]⟩, ⟨"b", 2024, ["y"]⟩]
          (dfWithYear [("c", ["z"])] 2024) 2024) ∧
    ((⟨"a", 2023, ["x"]⟩ : MRow) ∈
        updateCombined [⟨"a", 2023, ["x"]⟩, ⟨"b", 2024, ["y"]⟩]
          (dfWithYear [("c", ["z"])] 2024) 2024 →
      (2023 : Nat) = 2024 → (⟨"a", 2023, ["x"]⟩ : MRow) ∈ dfWithYear [("c", ["z"])] 2024) ∧
    ((⟨"a", 2023, ["x"]⟩ : MRow) ∈ dfWithYear [("c", ["z"])] 2024 →
      (⟨"a", 2023, ["x"]⟩ : MRow) ∈
        updateCombined [⟨"a", 2023, ["x"]⟩, ⟨"b", 2024, ["y"]⟩]
          (dfWithYear [("c", ["z"])] 2024) 2024) ∧
    updateCombined
        (updateCombined [⟨"a", 2023, ["x"]⟩, ⟨"b", 2024, ["y"]⟩]
          (dfWithYear [("c", ["z"])] 2024) 2024)
        (dfWithYear [("c", ["z"])] 2024) 2024 =
      updateCombined [⟨"a", 2023, ["x"]⟩, ⟨"b", 2024, ["y"]⟩]
        (dfWithYear [("c", ["z"])] 2024) 2024 ∧
    (updateCombined
        (updateCombined [⟨"a", 2023, ["x"]⟩, ⟨"b", 2024, ["y"]⟩]
          (dfWithYear [("c", ["z"])] 2024) 2024)
        (dfWithYear [("d", ["w"])] (2024 + 1)) (2024 + 1)).filter
        (fun s => s.year == 2024) =
      (updateCombined [⟨"a", 2023, ["x"]⟩, ⟨"b", 2024, ["y"]⟩]
        (dfWithYear [("c", ["z"])] 2024) 2024).filter (fun s => s.year == 2024) :=
  save_to_csv_merge_properties [⟨"a", 2023, ["x"]⟩, ⟨"b", 2024, ["y"]⟩]
    [("c", ["z"])] [("d", ["w"])] 2024 ⟨"a", 2023, ["x"]⟩

/-- Witness for the amended C2 theorem at the concrete input `10-16 ft.`. -/
theorem clean_column_name_deterministic_no_banned_witness :
    cleanColumnName (some "10-16 ft.") = cleanColumnName (some "10-16 ft.") ∧
    ' ' ∉ (cleanColumnName (some "10-16 ft.")).data ∧
    '-' ∉ (cleanColumnName (some "10-16 ft.")).data ∧
    '%' ∉ (cleanColumnName (some "10-16 ft.")).data ∧
    '+' ∉ (cleanColumnName (some "10-16 ft.")).data ∧
    '/' ∉ (cleanColumnName (some "10-16 ft.")).data ∧
    '.' ∉ (cleanColumnName (some "10-16 ft.")).data ∧
    '#' ∉ (cleanColumnName (some "10-16 ft.")).data ∧
    '\x27' ∉ (cleanColumnName (some "10-16 ft.")).data ∧
    noDU (cleanColumnName (some "10-16 ft.")).data = true ∧
    noTrailU (cleanColumnName (some "10-16 ft.")).data = true :=
  clean_column_name_deterministic_no_banned (some "10-16 ft.") (some "10-16 ft.") rfl
